import Mathlib

/-!
Grantlee: library resolution, template lookup and type accessors.

A shallow embedding of `grantlee_core/engine.cpp` (the `Engine` facade and
its private part) and of `templates/lib/typeaccessors.cpp` (the property
lookup on `SafeString` and `MetaEnumVariable`), followed by theorems about
the embedded functions.

Conventions of the embedding

* A C++ pointer that may be null is an `Option`; `none` is the null pointer.
* A `while` loop over a list index is a recursion over the list.
* The file system and the Qt plugin machinery are read through the oracles of
  `Env`; they are assumed not to change while one engine call runs.
* `uint` arithmetic is arithmetic on `Nat` modulo `2 ^ 32`.
* A loop that the source does not bound takes a step budget and answers
  `none` when the budget is used up before the loop has returned.
* A call that can dereference a null pointer answers with an `Outcome`: it
  either returns a value or ends in the dereference.
-/

namespace Grantlee

/-! ## Part 1: definitions -/

/-! ### Engine: data model -/

/-- The static name `__scriptableLibName` of engine.cpp. -/
def scriptableLibName : String := "grantlee_scriptabletags"

/-- Width of the C++ type `uint`. -/
def uintModulus : Nat := 2 ^ 32

/-- The object a `TagLibraryInterface*` points to.  A plugin library is the
root object of a loaded plugin (identified by the object identity the plugin
loader hands out).  A scriptable library is a `ScriptableLibraryContainer`
allocated by the engine: `serial` is its allocation identity (how many
containers the engine had allocated before it), `host` is the scriptable-tags
library whose `nodeFactories` and `filters` were asked for `libFileName`. -/
inductive TagLibraryInterface where
  | plugin (root : Nat)
  | scriptable (serial : Nat) (host : TagLibraryInterface) (libFileName : String)
deriving DecidableEq, Repr

/-- The compiled content a `Template` pointer refers to. -/
structure TemplateImpl where
  objectName : String
  content : String
deriving DecidableEq, Repr

/-- The content a `MutableTemplate` pointer refers to. -/
structure MutableTemplateImpl where
  objectName : String
  content : String
deriving DecidableEq, Repr

/-- A `Template` is a shared pointer; `none` is the empty `Template()`. -/
abbrev Template := Option TemplateImpl

/-- A `MutableTemplate` is a shared pointer; `none` is the empty one. -/
abbrev MutableTemplate := Option MutableTemplateImpl

/-- The virtual interface of `AbstractTemplateLoader`, as the engine uses it.
The engine argument of the two load methods is the calling engine itself. -/
structure AbstractTemplateLoader where
  canLoadTemplate : String → Bool
  loadByName : String → Template
  loadMutableByName : String → MutableTemplate
  getMediaUri : String → String

/-- Error kinds of `Grantlee::Exception` (those the engine and the
specification name). -/
inductive Error where
  | NoError
  | TagSyntaxError
  | VariableNotInContext
  | FilterArgumentError
deriving DecidableEq, Repr

/-- A thrown `Grantlee::Exception`. -/
structure Exception where
  errorCode : Error
  what : String
deriving DecidableEq, Repr

/-- One call the engine makes on the loader registered at position `index`. -/
inductive LoaderCall where
  | canLoadTemplate (index : Nat)
  | loadByName (index : Nat)
  | loadMutableByName (index : Nat)
  | getMediaUri (index : Nat)
deriving DecidableEq, Repr

/-- Position of the loader a call was made on. -/
def LoaderCall.index : LoaderCall → Nat
  | .canLoadTemplate i => i
  | .loadByName i => i
  | .loadMutableByName i => i
  | .getMediaUri i => i

/-- How a call that may dereference a null pointer ends: it returns a value,
or it reaches the dereference and does not return. -/
inductive Outcome (α : Type) where
  | returned (value : α)
  | nullDereference
deriving DecidableEq, Repr

/-- The value a call returned, mapped; a null dereference stays one. -/
def Outcome.map {α β : Type} (f : α → β) : Outcome α → Outcome β
  | .returned value => .returned (f value)
  | .nullDereference => .nullDereference

/-- What the engine reads from outside itself: the version constants of
`grantlee_version.h`, the file system and the plugin loader. -/
structure Env where
  /-- The constant GRANTLEE_VERSION_MAJOR. -/
  GRANTLEE_VERSION_MAJOR : Nat
  /-- The constant GRANTLEE_VERSION_MINOR. -/
  GRANTLEE_VERSION_MINOR : Nat
  /-- The constant GRANTLEE_MIN_PLUGIN_VERSION. -/
  GRANTLEE_MIN_PLUGIN_VERSION : Nat
  /-- Answer of `QFile( path ).exists()`. -/
  fileExists : String → Bool
  /-- Answer of `QDir( path ).exists()`. -/
  dirExists : String → Bool
  /-- Answer of `QDir( path ).entryList( QStringList( filter ) )`. -/
  entryList : String → String → List String
  /-- Answer of `QPluginLoader( file ).instance()`: the root object of the
  plugin, `none` when the plugin does not load. -/
  pluginInstance : String → Option Nat
  /-- Whether `qobject_cast<TagLibraryInterface*>` of a root object is not
  null, that is, whether the plugin implements the interface. -/
  isTagLibraryInterface : Nat → Bool

/-- The fields of `EnginePrivate`.  `m_libraries` is the `QHash` from library
name to library, kept as an association list with at most one entry per key;
a `QPluginLoader` is identified by the file it was created for. -/
structure EnginePrivate where
  m_libraries : List (String × TagLibraryInterface)
  m_scriptableLibraries : List TagLibraryInterface
  m_pluginLoaders : List String
  m_pluginDirs : List String
  m_defaultLibraries : List String
  m_loaders : List AbstractTemplateLoader

/-- Model of `QHash::contains`. -/
def QHash.contains (h : List (String × TagLibraryInterface)) (key : String) : Bool :=
  (h.lookup key).isSome

/-- Model of `QHash::value`; `none` is the default-constructed null pointer. -/
def QHash.value (h : List (String × TagLibraryInterface)) (key : String) :
    Option TagLibraryInterface :=
  h.lookup key

/-- Model of `QHash::insert`: an existing entry for the key is replaced. -/
def QHash.insert (h : List (String × TagLibraryInterface)) (key : String)
    (value : TagLibraryInterface) : List (String × TagLibraryInterface) :=
  (key, value) :: h.filter (fun e => e.1 != key)

/-- The state `Engine::Engine` leaves behind. -/
def Engine.new : EnginePrivate :=
  { m_libraries := []
    m_scriptableLibraries := []
    m_pluginLoaders := []
    m_pluginDirs := []
    m_defaultLibraries :=
      ["grantlee_defaulttags", "grantlee_loadertags", "grantlee_defaultfilters",
        "grantlee_scriptabletags"]
    m_loaders := [] }

/-- Model of `Engine::addTemplateLoader`. -/
def Engine.addTemplateLoader (d : EnginePrivate) (loader : AbstractTemplateLoader) :
    EnginePrivate :=
  { d with m_loaders := d.m_loaders ++ [loader] }

/-- Model of `Engine::setPluginDirs`. -/
def Engine.setPluginDirs (d : EnginePrivate) (dirs : List String) : EnginePrivate :=
  { d with m_pluginDirs := dirs }

/-! ### Engine: library resolution -/

/-- The text `QString( "/%1.%2" ).arg( GRANTLEE_VERSION_MAJOR ).arg( minorVersion )`. -/
def versionDir (env : Env) (minorVersion : Nat) : String :=
  "/" ++ toString env.GRANTLEE_VERSION_MAJOR ++ "." ++ toString minorVersion

/-- The `while` loop of `EnginePrivate::loadScriptableLibrary`, over the plugin
directories that are still to be visited. -/
def EnginePrivate.loadScriptableLibraryLoop (env : Env) (d : EnginePrivate)
    (host : TagLibraryInterface) (name : String) (minorVersion : Nat) :
    List String → Option TagLibraryInterface × EnginePrivate
  | [] => (none, d)
  | nextDir :: rest =>
    let libFileName := nextDir ++ versionDir env minorVersion ++ "/" ++ name ++ ".qs"
    if !env.fileExists libFileName then
      EnginePrivate.loadScriptableLibraryLoop env d host name minorVersion rest
    else
      let library :=
        TagLibraryInterface.scriptable d.m_scriptableLibraries.length host libFileName
      (some library,
        { d with m_scriptableLibraries := d.m_scriptableLibraries ++ [library] })

/-- Model of `EnginePrivate::loadScriptableLibrary`. -/
def EnginePrivate.loadScriptableLibrary (env : Env) (d : EnginePrivate) (name : String)
    (minorVersion : Nat) : Option TagLibraryInterface × EnginePrivate :=
  match QHash.value d.m_libraries scriptableLibName with
  | none => (none, d)
  | some host =>
    EnginePrivate.loadScriptableLibraryLoop env d host name minorVersion d.m_pluginDirs

/-- The `while` loop of `EnginePrivate::loadCppLibrary`: the plugin found (if
any) and the list of plugin loaders after the loop.  The file name
`pluginDir.absoluteFilePath( list.first() )` is the directory path followed by
the entry. -/
def EnginePrivate.loadCppLibraryLoop (env : Env) (name : String) (minorVersion : Nat) :
    List String → List String → Option Nat × List String
  | [], loaders => (none, loaders)
  | nextDir :: rest, loaders =>
    let pluginDir := nextDir ++ versionDir env minorVersion ++ "/"
    if !env.dirExists pluginDir then
      EnginePrivate.loadCppLibraryLoop env name minorVersion rest loaders
    else
      match env.entryList pluginDir (name ++ "*") with
      | [] => EnginePrivate.loadCppLibraryLoop env name minorVersion rest loaders
      | first :: _ =>
        let loader := pluginDir ++ first
        match env.pluginInstance loader with
        | some plugin => (some plugin, loaders ++ [loader])
        | none =>
          EnginePrivate.loadCppLibraryLoop env name minorVersion rest (loaders ++ [loader])

/-- Model of `EnginePrivate::loadCppLibrary`.  After the loop the plugin found
is cast with `qobject_cast<TagLibraryInterface*>` and `setEngine` is called
on the result without a test: for a plugin that loads but does not implement
the interface that call is made on a null pointer. -/
def EnginePrivate.loadCppLibrary (env : Env) (d : EnginePrivate) (name : String)
    (minorVersion : Nat) : Outcome (Option TagLibraryInterface × EnginePrivate) :=
  match EnginePrivate.loadCppLibraryLoop env name minorVersion d.m_pluginDirs
      d.m_pluginLoaders with
  | (none, loaders) => Outcome.returned (none, { d with m_pluginLoaders := loaders })
  | (some plugin, loaders) =>
    if env.isTagLibraryInterface plugin then
      let library := TagLibraryInterface.plugin plugin
      Outcome.returned (some library,
        { d with
          m_pluginLoaders := loaders
          m_libraries := QHash.insert d.m_libraries name library })
    else
      Outcome.nullDereference

/-- Model of `EnginePrivate::loadLibrary( name, minorVersion )`. -/
def EnginePrivate.loadLibrary (env : Env) (d : EnginePrivate) (name : String)
    (minorVersion : Nat) : Outcome (Option TagLibraryInterface × EnginePrivate) :=
  match EnginePrivate.loadScriptableLibrary env d name minorVersion with
  | (some scriptableLibrary, d1) => Outcome.returned (some scriptableLibrary, d1)
  | (none, d1) => EnginePrivate.loadCppLibrary env d1 name minorVersion

/-- The pointer `EnginePrivate::loadLibrary( name, minorVersion )` returns,
without the state it leaves behind. -/
def EnginePrivate.resolves (env : Env) (d : EnginePrivate) (name : String)
    (minorVersion : Nat) : Outcome (Option TagLibraryInterface) :=
  (EnginePrivate.loadLibrary env d name minorVersion).map Prod.fst

/-- What a run of `Engine::loadLibrary` yields: the pointer returned, the
engine state afterwards, and the minor versions handed to
`EnginePrivate::loadLibrary`, in the order of the calls. -/
structure LoadResult where
  library : Option TagLibraryInterface
  state : EnginePrivate
  attempts : List Nat

/-- The value of a `uint` after `minorVersion--`. -/
def uintDecrement (minorVersion : Nat) : Nat :=
  (minorVersion + (uintModulus - 1)) % uintModulus

/-- The `while ( minorVersion >= GRANTLEE_MIN_PLUGIN_VERSION )` loop of
`Engine::loadLibrary`.  The first argument is the step budget. -/
def Engine.loadLibraryLoop (env : Env) (name : String) :
    Nat → Nat → EnginePrivate → List Nat → Option (Outcome LoadResult)
  | 0, _, _, _ => none
  | budget + 1, minorVersion, d, attempts =>
    if minorVersion ≥ env.GRANTLEE_MIN_PLUGIN_VERSION % uintModulus then
      match EnginePrivate.loadLibrary env d name minorVersion with
      | Outcome.nullDereference => some Outcome.nullDereference
      | Outcome.returned (some library, d1) =>
        some (Outcome.returned
          { library := some library, state := d1, attempts := attempts ++ [minorVersion] })
      | Outcome.returned (none, d1) =>
        Engine.loadLibraryLoop env name budget (uintDecrement minorVersion) d1
          (attempts ++ [minorVersion])
    else
      some (Outcome.returned { library := none, state := d, attempts := attempts })

/-- Model of `Engine::loadLibrary( name )`, run with a step budget. -/
def Engine.loadLibrary (env : Env) (budget : Nat) (d : EnginePrivate) (name : String) :
    Option (Outcome LoadResult) :=
  if name = scriptableLibName then
    some (Outcome.returned { library := none, state := d, attempts := [] })
  else if QHash.contains d.m_libraries name then
    some (Outcome.returned
      { library := QHash.value d.m_libraries name, state := d, attempts := [] })
  else
    Engine.loadLibraryLoop env name budget (env.GRANTLEE_VERSION_MINOR % uintModulus) d []

/-- The observable part of a run of `Engine::loadLibrary`: the pointer
returned, the library cache, the list of scriptable libraries and the
versions tried. -/
def LoadResult.observed (r : LoadResult) :
    Option TagLibraryInterface × List (String × TagLibraryInterface) ×
      List TagLibraryInterface × List Nat :=
  (r.library, r.state.m_libraries, r.state.m_scriptableLibraries, r.attempts)

/-- The minor versions from `hi` down to `lo`, newest first. -/
def versionsDownTo (hi lo : Nat) : List Nat :=
  (List.range' lo (hi + 1 - lo)).reverse

/-- Model of `Engine::loadDefaultLibraries`: the body of the `foreach` over
the default library names, folded over the names that are still to come. -/
def Engine.loadDefaultLibrariesLoop (env : Env) (budget : Nat) :
    List String → EnginePrivate → Option (Outcome EnginePrivate)
  | [], d => some (Outcome.returned d)
  | libName :: rest, d =>
    if libName = scriptableLibName then
      Engine.loadDefaultLibrariesLoop env budget rest d
    else
      match Engine.loadLibrary env budget d libName with
      | none => none
      | some Outcome.nullDereference => some Outcome.nullDereference
      | some (Outcome.returned r) => Engine.loadDefaultLibrariesLoop env budget rest r.state

/-- Model of `Engine::loadDefaultLibraries`; `budget` bounds each of the calls
of `Engine::loadLibrary` it makes. -/
def Engine.loadDefaultLibraries (env : Env) (budget : Nat) (d : EnginePrivate) :
    Option (Outcome EnginePrivate) :=
  if d.m_defaultLibraries.contains scriptableLibName then
    match EnginePrivate.loadCppLibrary env d scriptableLibName
        (env.GRANTLEE_VERSION_MINOR % uintModulus) with
    | Outcome.nullDereference => some Outcome.nullDereference
    | Outcome.returned r => Engine.loadDefaultLibrariesLoop env budget d.m_defaultLibraries r.2
  else
    Engine.loadDefaultLibrariesLoop env budget d.m_defaultLibraries d

/-- Two engine states that agree on every field except the list of plugin
loaders. -/
def EnginePrivate.sameUpToLoaders (d e : EnginePrivate) : Prop :=
  d.m_libraries = e.m_libraries ∧ d.m_scriptableLibraries = e.m_scriptableLibraries ∧
    d.m_pluginDirs = e.m_pluginDirs ∧ d.m_defaultLibraries = e.m_defaultLibraries ∧
    d.m_loaders = e.m_loaders

/-- Two ways a resolution at one version can end that agree: both end in the
null dereference, or both return the same pointer and leave states that agree
up to the plugin loaders. -/
def Outcome.sameUpToLoaders :
    Outcome (Option TagLibraryInterface × EnginePrivate) →
      Outcome (Option TagLibraryInterface × EnginePrivate) → Prop
  | Outcome.returned r, Outcome.returned s => r.1 = s.1 ∧ r.2.sameUpToLoaders s.2
  | Outcome.nullDereference, Outcome.nullDereference => True
  | _, _ => False

/-! ### Engine: concrete environments used as test inputs -/

/-- An installation whose minimum plugin version is 0 and that holds no
plugin at all. -/
def emptyEnvMinZero : Env :=
  { GRANTLEE_VERSION_MAJOR := 0
    GRANTLEE_VERSION_MINOR := 0
    GRANTLEE_MIN_PLUGIN_VERSION := 0
    fileExists := fun _ => false
    dirExists := fun _ => false
    entryList := fun _ _ => []
    pluginInstance := fun _ => none
    isTagLibraryInterface := fun _ => true }

/-- An installation whose minimum plugin version is 0 and whose only plugin
directory is the one of minor version 4294967295. -/
def wrapEnv : Env :=
  { GRANTLEE_VERSION_MAJOR := 0
    GRANTLEE_VERSION_MINOR := 0
    GRANTLEE_MIN_PLUGIN_VERSION := 0
    fileExists := fun _ => false
    dirExists := fun path => path == "/p/0.4294967295/"
    entryList := fun _ _ => ["x.so"]
    pluginInstance := fun _ => some 1
    isTagLibraryInterface := fun _ => true }

/-- An installation of version 0.1 (minimum plugin version 1) with the
scriptable-tags plugin and one script library `foo.qs` under `/p/0.1`. -/
def scriptEnv : Env :=
  { GRANTLEE_VERSION_MAJOR := 0
    GRANTLEE_VERSION_MINOR := 1
    GRANTLEE_MIN_PLUGIN_VERSION := 1
    fileExists := fun path => path == "/p/0.1/foo.qs"
    dirExists := fun path => path == "/p/0.1/"
    entryList := fun _ filter =>
      if filter == "grantlee_scriptabletags*" then ["grantlee_scriptabletags.so"] else []
    pluginInstance := fun _ => some 7
    isTagLibraryInterface := fun _ => true }

/-- An installation of version 0.2 (minimum plugin version 1): the plugin
`bar` exists for minor version 1 only. -/
def twoVersionEnv : Env :=
  { GRANTLEE_VERSION_MAJOR := 0
    GRANTLEE_VERSION_MINOR := 2
    GRANTLEE_MIN_PLUGIN_VERSION := 1
    fileExists := fun _ => false
    dirExists := fun path => path == "/p/0.1/" || path == "/p/0.2/"
    entryList := fun dir filter =>
      if dir == "/p/0.1/" && filter == "bar*" then ["bar.so"] else []
    pluginInstance := fun file => if file == "/p/0.1/bar.so" then some 3 else none
    isTagLibraryInterface := fun _ => true }

/-- An installation of version 0.2 (minimum plugin version 1) with two plugin
directories: the first holds `bar` for minor version 1, the second holds it
for minor version 2. -/
def priorityEnv : Env :=
  { GRANTLEE_VERSION_MAJOR := 0
    GRANTLEE_VERSION_MINOR := 2
    GRANTLEE_MIN_PLUGIN_VERSION := 1
    fileExists := fun _ => false
    dirExists := fun path => path == "/a/0.1/" || path == "/b/0.2/"
    entryList := fun _ filter => if filter == "bar*" then ["bar.so"] else []
    pluginInstance := fun file =>
      if file == "/a/0.1/bar.so" then some 1
      else if file == "/b/0.2/bar.so" then some 2
      else none
    isTagLibraryInterface := fun _ => true }

/-- An installation of version 0.2 (minimum plugin version 1) in which a file
named like the plugin `baz` exists for minor version 2 but does not load. -/
def brokenPluginEnv : Env :=
  { GRANTLEE_VERSION_MAJOR := 0
    GRANTLEE_VERSION_MINOR := 2
    GRANTLEE_MIN_PLUGIN_VERSION := 1
    fileExists := fun _ => false
    dirExists := fun path => path == "/p/0.2/"
    entryList := fun _ filter => if filter == "baz*" then ["baz.so"] else []
    pluginInstance := fun _ => none
    isTagLibraryInterface := fun _ => true }

/-- A fresh engine whose plugin directories have been set. -/
def engineWithDirs (dirs : List String) : EnginePrivate :=
  Engine.setPluginDirs Engine.new dirs

/-- An installation of version 0.2 (minimum plugin version 1) in which the
file found for `qux` at minor version 2 loads as a plugin that does not
implement `TagLibraryInterface` (root object 5), while a proper plugin (root
object 4) exists for minor version 1. -/
def foreignPluginEnv : Env :=
  { GRANTLEE_VERSION_MAJOR := 0
    GRANTLEE_VERSION_MINOR := 2
    GRANTLEE_MIN_PLUGIN_VERSION := 1
    fileExists := fun _ => false
    dirExists := fun path => path == "/p/0.1/" || path == "/p/0.2/"
    entryList := fun _ filter => if filter == "qux*" then ["qux.so"] else []
    pluginInstance := fun file =>
      if file == "/p/0.2/qux.so" then some 5
      else if file == "/p/0.1/qux.so" then some 4
      else none
    isTagLibraryInterface := fun root => root == 4 }

/-- The run of `Engine::loadLibrary( "baz" )` in `brokenPluginEnv`: a miss
that leaves one plugin loader behind. -/
def brokenPluginMiss : LoadResult :=
  { library := none
    state := { engineWithDirs ["/p"] with m_pluginLoaders := ["/p/0.2/baz.so"] }
    attempts := [2, 1] }

/-! ### Engine: template loaders -/

/-- What a const method of the engine that consults the template loaders
yields: its return value, the calls it made on the loaders (in order) and the
engine state afterwards. -/
structure LoaderRun (α : Type) where
  value : α
  calls : List LoaderCall
  state : EnginePrivate

/-- The `while ( it.hasNext() )` loop of `Engine::mediaUri`: the loaders still
to be visited, the position of the next one, the current `uri` and the calls
made so far. -/
def Engine.mediaUriLoop (fileName : String) :
    List AbstractTemplateLoader → Nat → String → List LoaderCall → String × List LoaderCall
  | [], _, uri, calls => (uri, calls)
  | loader :: rest, i, _, calls =>
    let uri := loader.getMediaUri fileName
    if !uri.isEmpty then
      (uri, calls ++ [LoaderCall.getMediaUri i])
    else
      Engine.mediaUriLoop fileName rest (i + 1) uri (calls ++ [LoaderCall.getMediaUri i])

/-- Model of `Engine::mediaUri`. -/
def Engine.mediaUri (d : EnginePrivate) (fileName : String) : LoaderRun String :=
  let r := Engine.mediaUriLoop fileName d.m_loaders 0 "" []
  { value := r.1, calls := r.2, state := d }

/-- The `while ( it.hasNext() )` loop of `Engine::loadByName`. -/
def Engine.loadByNameLoop (name : String) :
    List AbstractTemplateLoader → Nat → List LoaderCall → Template × List LoaderCall
  | [], _, calls => (none, calls)
  | loader :: rest, i, calls =>
    if !loader.canLoadTemplate name then
      Engine.loadByNameLoop name rest (i + 1) (calls ++ [LoaderCall.canLoadTemplate i])
    else
      match loader.loadByName name with
      | some t => (some t, calls ++ [LoaderCall.canLoadTemplate i, LoaderCall.loadByName i])
      | none =>
        Engine.loadByNameLoop name rest (i + 1)
          (calls ++ [LoaderCall.canLoadTemplate i, LoaderCall.loadByName i])

/-- Model of `Engine::loadByName`. -/
def Engine.loadByName (d : EnginePrivate) (name : String) : LoaderRun Template :=
  let r := Engine.loadByNameLoop name d.m_loaders 0 []
  { value := r.1, calls := r.2, state := d }

/-- The `while ( it.hasNext() )` loop of `Engine::loadMutableByName`, with the
`throw` that follows it. -/
def Engine.loadMutableByNameLoop (name : String) :
    List AbstractTemplateLoader → Nat → List LoaderCall →
      Except Exception MutableTemplate × List LoaderCall
  | [], _, calls =>
    (Except.error { errorCode := Error.TagSyntaxError, what := "Most recent state is invalid." },
      calls)
  | loader :: rest, i, calls =>
    match loader.loadMutableByName name with
    | some t => (Except.ok (some t), calls ++ [LoaderCall.loadMutableByName i])
    | none =>
      Engine.loadMutableByNameLoop name rest (i + 1)
        (calls ++ [LoaderCall.loadMutableByName i])

/-- Model of `Engine::loadMutableByName`. -/
def Engine.loadMutableByName (d : EnginePrivate) (name : String) :
    LoaderRun (Except Exception MutableTemplate) :=
  let r := Engine.loadMutableByNameLoop name d.m_loaders 0 []
  { value := r.1, calls := r.2, state := d }

/-- The selection rule the loader interface is specified with, for the
mutable lookup: the first loader in registration order that can load the name
and yields a valid mutable template.  This definition follows the
specification, not the source. -/
def specMutableLoaderPosition (loaders : List AbstractTemplateLoader) (name : String) :
    Option Nat :=
  loaders.findIdx? (fun loader =>
    loader.canLoadTemplate name && (loader.loadMutableByName name).isSome)

/-- Position of the loader a finished run took its value from: the loader of
the last call. -/
def selectedPosition (calls : List LoaderCall) : Option Nat :=
  calls.getLast?.map LoaderCall.index

/-- A loader over a fixed set of names that answers consistently: it can load
exactly the names in `names`, and both load methods succeed exactly on them. -/
def memoryLoader (names : List String) (mediaUri : String) : AbstractTemplateLoader :=
  { canLoadTemplate := fun name => names.contains name
    loadByName := fun name =>
      if names.contains name then some { objectName := name, content := "content" } else none
    loadMutableByName := fun name =>
      if names.contains name then some { objectName := name, content := "content" } else none
    getMediaUri := fun _ => mediaUri }

/-- A loader that reports it cannot load any name, although both of its load
methods yield a template for every name. -/
def shyLoader : AbstractTemplateLoader :=
  { canLoadTemplate := fun _ => false
    loadByName := fun name => some { objectName := name, content := "shy" }
    loadMutableByName := fun name => some { objectName := name, content := "shy" }
    getMediaUri := fun _ => "" }

/-- A fresh engine with the given loaders registered in order. -/
def engineWithLoaders (loaders : List AbstractTemplateLoader) : EnginePrivate :=
  loaders.foldl Engine.addTemplateLoader Engine.new

/-- A fresh engine with two consistent loaders: the first can load `a`, the
second can load `b` and knows a media location. -/
def twoLoaderEngine : EnginePrivate :=
  engineWithLoaders [memoryLoader ["a"] "", memoryLoader ["b"] "/media/"]

/-! ### Type accessors: Qt text functions -/

/-- The functions of `QChar` and `QString` the type accessors rely on.  They
belong to Qt, not to this repository, and are taken as given: the character
classes and single-character case mappings of `QChar`, the per-character
expansions `QString::toUpper` and `QString::toLower` apply, and the base-10
parse `QString::toInt` (`none` when the C++ sets `ok` to false). -/
structure QtText where
  isLetter : Char → Bool
  isNumber : Char → Bool
  isMark : Char → Bool
  isUpper : Char → Bool
  isLower : Char → Bool
  isSpace : Char → Bool
  toUpper : Char → Char
  toLower : Char → Char
  upperCased : Char → List Char
  lowerCased : Char → List Char
  toInt : String → Option Int

/-- Model of `QChar::isLetterOrNumber`: a letter category or a number category. -/
def QtText.isLetterOrNumber (U : QtText) (c : Char) : Bool :=
  U.isLetter c || U.isNumber c

/-- Model of `QString::toUpper`. -/
def QString.toUpper (U : QtText) (s : List Char) : List Char :=
  s.flatMap U.upperCased

/-- Model of `QString::toLower`. -/
def QString.toLower (U : QtText) (s : List Char) : List Char :=
  s.flatMap U.lowerCased

/-- Model of `QString::trimmed`: white space removed from both ends. -/
def QString.trimmed (U : QtText) (s : List Char) : List Char :=
  ((s.dropWhile U.isSpace).reverse.dropWhile U.isSpace).reverse

/-- Model of `QString::right( n )` for `n ≥ 0`: the `n` rightmost characters,
the whole string when `n` is not smaller than its length. -/
def QString.right (s : List Char) (n : Nat) : List Char :=
  s.drop (s.length - n)

/-- Model of `QString::mid( position, n )` for `n ≥ 0`. -/
def QString.mid (s : List Char) (position n : Nat) : List Char :=
  (s.drop position).take n

/-- Model of `QString::split( sep )` (empty parts are kept, so the result is
never empty). -/
def QString.split (sep : Char) : List Char → List (List Char)
  | [] => [[]]
  | c :: rest =>
    if c = sep then
      [] :: QString.split sep rest
    else
      match QString.split sep rest with
      | [] => [[c]]
      | piece :: pieces => (c :: piece) :: pieces

/-- The word characters of `QRegExp` (`isWord` in qregexp.cpp): a letter or
number, a mark, or the underscore. -/
def QRegExp.isWord (U : QtText) (c : Char) : Bool :=
  U.isLetterOrNumber c || U.isMark c || c == '_'

/-- The anchor `\b` of `QRegExp` at position `p` of `s`: the characters
before and after the position differ in being word characters; beyond either
end of the string there is no word character. -/
def QRegExp.wordBoundary (U : QtText) (s : List Char) (p : Nat) : Bool :=
  let before :=
    if p = 0 then false
    else
      match s[p - 1]? with
      | some c => QRegExp.isWord U c
      | none => false
  let after :=
    match s[p]? with
    | some c => QRegExp.isWord U c
    | none => false
  before != after

/-- Whether the expression of `getIsTitleRegexp`, `\b[a-z]`, matches at
position `p` of `s`. -/
def getIsTitleRegexp (U : QtText) (s : List Char) (p : Nat) : Bool :=
  QRegExp.wordBoundary U s p &&
    match s[p]? with
    | some c => decide ('a' ≤ c ∧ c ≤ 'z')
    | none => false

/-- Whether the expression of `getTitleRegexp`, `\b(.)`, matches at position
`p` of `s`; the match is the one character at `p`. -/
def getTitleRegexp (U : QtText) (s : List Char) (p : Nat) : Bool :=
  QRegExp.wordBoundary U s p && decide (p < s.length)

/-- Model of `QRegExp::indexIn( s, offset )` for an expression that matches
one character: the first position from `offset` on at which the expression
matches; `none` stands for the result -1. -/
def QRegExp.indexIn (re : List Char → Nat → Bool) (s : List Char) (offset : Nat) :
    Option Nat :=
  (List.range' offset (s.length - offset)).find? (re s)

/-! ### Type accessors: `SafeString` -/

/-- A `Grantlee::SafeString`: the nested string and the safety flag. -/
structure SafeString where
  get : String
  isSafe : Bool
deriving DecidableEq, Repr

/-- The reflection data of an enumeration (`QMetaEnum`): its name, its scope
and its keys with their values, in declaration order. -/
structure QMetaEnum where
  name : String
  scope : String
  keys : List (String × Int)
deriving DecidableEq, Repr

/-- The struct `MetaEnumVariable` of metaenumvariable_p.h. -/
structure MetaEnumVariable where
  enumerator : QMetaEnum
  value : Int
deriving DecidableEq, Repr

/-- The values a `QVariant` returned by the type accessors can hold;
`invalid` is the default-constructed `QVariant()`, the not-found value. -/
inductive QVariant where
  | invalid
  | int (value : Int)
  | string (value : String)
  | list (values : List QVariant)
  | metaEnumVariable (value : MetaEnumVariable)
deriving Repr

/-- The `while` loop of the `title` branch of the `SafeString` accessor.  The
arguments are the step budget, `pos` and `output`; `matchedLength` is 1, the
length of a match of `\b(.)`. -/
def titleLoop (U : QtText) (s : List Char) : Nat → Nat → List Char → Option (List Char)
  | 0, _, _ => none
  | budget + 1, pos, output =>
    match QRegExp.indexIn (getTitleRegexp U) s pos with
    | none => some output
    | some pos1 =>
      let cap1 := QString.mid s pos1 1
      let output1 := output ++ QString.toUpper U cap1
      let matchedLength := 1
      let output2 :=
        match QRegExp.indexIn (getTitleRegexp U) s (pos1 + matchedLength) with
        | some nextPos => output1 ++ QString.mid s (pos1 + matchedLength) (nextPos - pos1 - 1)
        | none => output1 ++ QString.right s (s.length - (pos1 + matchedLength))
      titleLoop U s budget (pos1 + matchedLength) output2

/-- Model of `TypeAccessor<Grantlee::SafeString&>::lookUp`.  The answer is
`none` where the C++ has no defined result: a character access out of range,
or a loop still running when its step budget is used up (the `title` loop is
given one step per character and one more). -/
def TypeAccessor.SafeString.lookUp (U : QtText) (object : SafeString) (property : String) :
    Option QVariant :=
  let falseString := "False"
  let trueString := "True"
  if property = "capitalize" then
    let s := object.get.toList
    match s with
    | [] => none
    | c :: _ => some (QVariant.string (String.mk (U.toUpper c :: QString.right s (s.length - 1))))
  else if property = "isalnum" then
    let s := object.get.toList
    if s.all U.isLetterOrNumber then some (QVariant.string trueString)
    else some (QVariant.string falseString)
  else if property = "isalpha" then
    let s := object.get.toList
    if s.isEmpty then some (QVariant.string falseString)
    else if s.all U.isLetter then some (QVariant.string trueString)
    else some (QVariant.string falseString)
  else if property = "isdigit" then
    let s := object.get.toList
    if s.all U.isNumber then some (QVariant.string trueString)
    else some (QVariant.string falseString)
  else if property = "islower" then
    let s := QString.toLower U object.get.toList
    some (QVariant.string (if s = object.get.toList then trueString else falseString))
  else if property = "isspace" then
    let s := QString.trimmed U object.get.toList
    some (QVariant.string (if s.isEmpty then trueString else falseString))
  else if property = "istitle" then
    let s := object.get.toList
    some (QVariant.string
      (if (QRegExp.indexIn (getIsTitleRegexp U) s 0).isNone then trueString else falseString))
  else if property = "isupper" then
    let s := QString.toUpper U object.get.toList
    some (QVariant.string (if s = object.get.toList then trueString else falseString))
  else if property = "lower" then
    some (QVariant.string (String.mk (QString.toLower U object.get.toList)))
  else if property = "splitlines" then
    let strings := QString.split '\n' object.get.toList
    some (QVariant.list (strings.map (fun piece => QVariant.string (String.mk piece))))
  else if property = "strip" then
    some (QVariant.string (String.mk (QString.trimmed U object.get.toList)))
  else if property = "swapcase" then
    let inputString := object.get.toList
    some (QVariant.string (String.mk (inputString.map (fun c =>
      if U.isUpper c then U.toLower c
      else if U.isLower c then U.toUpper c
      else c))))
  else if property = "title" then
    let s := object.get.toList
    (titleLoop U s (s.length + 1) 0 []).map (fun output => QVariant.string (String.mk output))
  else if property = "upper" then
    some (QVariant.string (String.mk (QString.toUpper U object.get.toList)))
  else
    some QVariant.invalid

/-! ### Type accessors: `MetaEnumVariable` -/

/-- Model of `QMetaEnum::keyCount`. -/
def QMetaEnum.keyCount (e : QMetaEnum) : Int :=
  e.keys.length

/-- Model of `QMetaEnum::value( index )`: the value of the key at `index`, and
-1 when there is no such key. -/
def QMetaEnum.value (e : QMetaEnum) (index : Int) : Int :=
  if 0 ≤ index ∧ index < e.keyCount then
    match e.keys[index.toNat]? with
    | some entry => entry.2
    | none => -1
  else -1

/-- Model of `QMetaEnum::valueToKey( value )` seen through `QLatin1String`:
the first key with that value, the empty string when there is none. -/
def QMetaEnum.valueToKey (e : QMetaEnum) (value : Int) : String :=
  match e.keys.find? (fun entry => entry.2 == value) with
  | some entry => entry.1
  | none => ""

/-- Model of `TypeAccessor<MetaEnumVariable&>::lookUp`. -/
def TypeAccessor.MetaEnumVariable.lookUp (U : QtText) (object : MetaEnumVariable)
    (property : String) : QVariant :=
  if property = "name" then
    QVariant.string object.enumerator.name
  else if property = "value" then
    QVariant.int object.value
  else if property = "key" then
    QVariant.string (object.enumerator.valueToKey object.value)
  else if property = "scope" then
    QVariant.string object.enumerator.scope
  else if property = "keyCount" then
    QVariant.int object.enumerator.keyCount
  else
    match U.toInt property with
    | some listIndex =>
      if listIndex ≥ object.enumerator.keyCount then
        QVariant.invalid
      else
        QVariant.metaEnumVariable
          { enumerator := object.enumerator, value := object.enumerator.value listIndex }
    | none => QVariant.invalid

/-! ### Type accessors: a concrete text table and test inputs -/

/-- White space of the ASCII range, as `QChar::isSpace` classifies it. -/
def asciiIsSpace (c : Char) : Bool :=
  c == ' ' || (9 ≤ c.toNat && c.toNat ≤ 13)

/-- Base-10 parse of a 32-bit `int` in the manner of `QString::toInt`: white
space around the number is ignored, one sign is allowed, at least one digit
is required, and a value outside the range of `int` is rejected. -/
def asciiToInt (text : String) : Option Int :=
  let trimmed :=
    ((text.toList.dropWhile asciiIsSpace).reverse.dropWhile asciiIsSpace).reverse
  let signed : Bool × List Char :=
    match trimmed with
    | '-' :: rest => (true, rest)
    | '+' :: rest => (false, rest)
    | other => (false, other)
  if signed.2.isEmpty || !signed.2.all Char.isDigit then none
  else
    let magnitude : Int :=
      signed.2.foldl (fun acc c => 10 * acc + ((c.toNat - 48 : Nat) : Int)) 0
    let value := if signed.1 then -magnitude else magnitude
    if -2147483648 ≤ value ∧ value ≤ 2147483647 then some value else none

/-- The Qt text functions restricted to ASCII: every character outside the
ASCII letters, digits and white space is unclassified and maps to itself. -/
def asciiText : QtText :=
  { isLetter := Char.isAlpha
    isNumber := Char.isDigit
    isMark := fun _ => false
    isUpper := Char.isUpper
    isLower := Char.isLower
    isSpace := asciiIsSpace
    toUpper := Char.toUpper
    toLower := Char.toLower
    upperCased := fun c => [c.toUpper]
    lowerCased := fun c => [c.toLower]
    toInt := asciiToInt }

/-- An enumeration with three keys. -/
def colourEnum : QMetaEnum :=
  { name := "Colour", scope := "Palette", keys := [("Red", 10), ("Green", 20), ("Blue", 30)] }

/-- The variable holding the value of `Green` of `colourEnum`. -/
def greenVariable : MetaEnumVariable :=
  { enumerator := colourEnum, value := 20 }

/-! ### Engine: the default-library list -/

/-- Model of `Engine::defaultLibraries`. -/
def Engine.defaultLibraries (d : EnginePrivate) : List String :=
  d.m_defaultLibraries

/-- Model of `Engine::addDefaultLibrary`. -/
def Engine.addDefaultLibrary (d : EnginePrivate) (libName : String) : EnginePrivate :=
  { d with m_defaultLibraries := d.m_defaultLibraries ++ [libName] }

/-- Model of `QStringList::removeAll`: every occurrence is removed, the other
elements keep their order. -/
def QStringList.removeAll (list : List String) (value : String) : List String :=
  list.filter (fun entry => entry != value)

/-- Model of `Engine::removeDefaultLibrary`. -/
def Engine.removeDefaultLibrary (d : EnginePrivate) (libName : String) : EnginePrivate :=
  { d with m_defaultLibraries := QStringList.removeAll d.m_defaultLibraries libName }

/-! ### Engine: script libraries -/

/-- The file `EnginePrivate::loadScriptableLibrary` looks for in a plugin
directory. -/
def scriptFileName (env : Env) (dir name : String) (minorVersion : Nat) : String :=
  dir ++ versionDir env minorVersion ++ "/" ++ name ++ ".qs"

/-- The engine of `scriptEnv` after the scriptable-tags plugin has been loaded
the way `Engine::loadDefaultLibraries` loads it. -/
def scriptEngine : EnginePrivate :=
  { engineWithDirs ["/p"] with
    m_libraries := [(scriptableLibName, TagLibraryInterface.plugin 7)]
    m_pluginLoaders := ["/p/0.1/grantlee_scriptabletags.so"] }

/-! ### Type accessors: title-casing described without the loop -/

/-- Whether the character before position `p` of `s` is a word character;
there is none before the start of the string. -/
def QRegExp.wordBefore (U : QtText) (s : List Char) (p : Nat) : Bool :=
  if p = 0 then false
  else
    match s[p - 1]? with
    | some c => QRegExp.isWord U c
    | none => false

/-- Title-casing as a function of the text alone: every character that stands
at a word boundary is replaced by its upper-case expansion, every other
character is kept.  The flag tells whether the character before the text is a
word character.  This definition is not taken from the source; the `title`
loop is compared with it. -/
def titleCase (U : QtText) : Bool → List Char → List Char
  | _, [] => []
  | before, c :: rest =>
    (if before != QRegExp.isWord U c then U.upperCased c else [c]) ++
      titleCase U (QRegExp.isWord U c) rest

/-- Whether a text holds a lower-case letter a-z right after a word boundary,
given whether the character before the text is a word character. -/
def titleViolation (U : QtText) : Bool → List Char → Bool
  | _, [] => false
  | before, c :: rest =>
    ((before != QRegExp.isWord U c) && decide ('a' ≤ c ∧ c ≤ 'z')) ||
      titleViolation U (QRegExp.isWord U c) rest

/-- What the `title` and `istitle` lookups need of the Qt case tables: the
letters a-z are word characters; no upper-case expansion holds a letter a-z;
and the upper-case expansion of a word character is not empty and ends in a
word character. -/
def QtText.CaseSane (U : QtText) : Prop :=
  (∀ c : Char, 'a' ≤ c ∧ c ≤ 'z' → QRegExp.isWord U c = true) ∧
    (∀ c c2 : Char, c2 ∈ U.upperCased c → ¬ ('a' ≤ c2 ∧ c2 ≤ 'z')) ∧
    (∀ c : Char, QRegExp.isWord U c = true →
      ∃ front last, U.upperCased c = front ++ [last] ∧ QRegExp.isWord U last = true)

/-- Whether the last character of a text is a word character; the flag
answers for the empty text. -/
def lastIsWord (U : QtText) : Bool → List Char → Bool
  | before, [] => before
  | _, c :: rest => lastIsWord U (QRegExp.isWord U c) rest

/-! ## Part 2: theorems -/

/-! ### Library resolution: one version -/

theorem sameUpToLoaders_refl (d : EnginePrivate) : d.sameUpToLoaders d :=
  ⟨rfl, rfl, rfl, rfl, rfl⟩

theorem sameUpToLoaders_trans {a b c : EnginePrivate} (h1 : a.sameUpToLoaders b)
    (h2 : b.sameUpToLoaders c) : a.sameUpToLoaders c := by
  obtain ⟨p1, p2, p3, p4, p5⟩ := h1
  obtain ⟨q1, q2, q3, q4, q5⟩ := h2
  exact ⟨p1.trans q1, p2.trans q2, p3.trans q3, p4.trans q4, p5.trans q5⟩

theorem sameUpToLoaders_symm {a b : EnginePrivate} (h : a.sameUpToLoaders b) :
    b.sameUpToLoaders a := by
  obtain ⟨p1, p2, p3, p4, p5⟩ := h
  exact ⟨p1.symm, p2.symm, p3.symm, p4.symm, p5.symm⟩

/-- A miss of the script loop leaves the state as it was. -/
theorem loadScriptableLibraryLoop_none (env : Env) (d : EnginePrivate)
    (host : TagLibraryInterface) (name : String) (v : Nat) (dirs : List String)
    (h : (EnginePrivate.loadScriptableLibraryLoop env d host name v dirs).1 = none) :
    (EnginePrivate.loadScriptableLibraryLoop env d host name v dirs).2 = d := by
  induction dirs with
  | nil => rfl
  | cons dir rest ih =>
    simp only [EnginePrivate.loadScriptableLibraryLoop] at h ⊢
    split
    · rename_i hx
      rw [if_pos hx] at h
      exact ih h
    · rename_i hx
      rw [if_neg hx] at h
      simp at h

theorem loadScriptableLibrary_none (env : Env) (d : EnginePrivate) (name : String) (v : Nat)
    (h : (EnginePrivate.loadScriptableLibrary env d name v).1 = none) :
    (EnginePrivate.loadScriptableLibrary env d name v).2 = d := by
  unfold EnginePrivate.loadScriptableLibrary at h ⊢
  split
  · rfl
  · rename_i host hh
    rw [hh] at h
    exact loadScriptableLibraryLoop_none env d host name v _ h

/-- The script loop reads the state only through the list of scriptable
libraries; two states that agree up to the plugin loaders get the same
answer. -/
theorem loadScriptableLibraryLoop_congr (env : Env) (d e : EnginePrivate)
    (hde : d.sameUpToLoaders e) (host : TagLibraryInterface) (name : String) (v : Nat)
    (dirs : List String) :
    (EnginePrivate.loadScriptableLibraryLoop env d host name v dirs).1 =
        (EnginePrivate.loadScriptableLibraryLoop env e host name v dirs).1 ∧
      (EnginePrivate.loadScriptableLibraryLoop env d host name v dirs).2.sameUpToLoaders
        (EnginePrivate.loadScriptableLibraryLoop env e host name v dirs).2 := by
  induction dirs with
  | nil => exact ⟨rfl, hde⟩
  | cons dir rest ih =>
    simp only [EnginePrivate.loadScriptableLibraryLoop]
    split
    · exact ih
    · obtain ⟨p1, p2, p3, p4, p5⟩ := hde
      refine ⟨by simp [p2], ?_⟩
      exact ⟨p1, by simp [p2], p3, p4, p5⟩

theorem loadScriptableLibrary_congr (env : Env) (d e : EnginePrivate)
    (hde : d.sameUpToLoaders e) (name : String) (v : Nat) :
    (EnginePrivate.loadScriptableLibrary env d name v).1 =
        (EnginePrivate.loadScriptableLibrary env e name v).1 ∧
      (EnginePrivate.loadScriptableLibrary env d name v).2.sameUpToLoaders
        (EnginePrivate.loadScriptableLibrary env e name v).2 := by
  unfold EnginePrivate.loadScriptableLibrary
  rw [← hde.1, ← hde.2.2.1]
  cases QHash.value d.m_libraries scriptableLibName with
  | none => exact ⟨rfl, hde⟩
  | some host => exact loadScriptableLibraryLoop_congr env d e hde host name v _

/-- The plugin the C++ loop finds does not depend on the loaders created so
far. -/
theorem loadCppLibraryLoop_fst (env : Env) (name : String) (v : Nat) (dirs : List String)
    (l1 l2 : List String) :
    (EnginePrivate.loadCppLibraryLoop env name v dirs l1).1 =
      (EnginePrivate.loadCppLibraryLoop env name v dirs l2).1 := by
  induction dirs generalizing l1 l2 with
  | nil => rfl
  | cons dir rest ih =>
    simp only [EnginePrivate.loadCppLibraryLoop]
    split
    · exact ih l1 l2
    · split
      · exact ih l1 l2
      · split
        · rfl
        · exact ih _ _

theorem loadCppLibrary_congr (env : Env) (d e : EnginePrivate)
    (hde : d.sameUpToLoaders e) (name : String) (v : Nat) :
    Outcome.sameUpToLoaders (EnginePrivate.loadCppLibrary env d name v)
      (EnginePrivate.loadCppLibrary env e name v) := by
  obtain ⟨p1, p2, p3, p4, p5⟩ := hde
  have hf := loadCppLibraryLoop_fst env name v d.m_pluginDirs d.m_pluginLoaders e.m_pluginLoaders
  unfold EnginePrivate.loadCppLibrary
  rw [← p3]
  rcases h1 : EnginePrivate.loadCppLibraryLoop env name v d.m_pluginDirs d.m_pluginLoaders with
    ⟨r1, s1⟩
  rcases h2 : EnginePrivate.loadCppLibraryLoop env name v d.m_pluginDirs e.m_pluginLoaders with
    ⟨r2, s2⟩
  rw [h1, h2] at hf
  simp only at hf
  subst hf
  cases r1 with
  | none => exact ⟨rfl, p1, p2, rfl, p4, p5⟩
  | some p =>
    simp only
    cases hcast : env.isTagLibraryInterface p with
    | true => exact ⟨rfl, by simp [p1], p2, rfl, p4, p5⟩
    | false => exact trivial

/-- A miss of the C++ path changes at most the list of plugin loaders. -/
theorem loadCppLibrary_none (env : Env) (d d1 : EnginePrivate) (name : String) (v : Nat)
    (h : EnginePrivate.loadCppLibrary env d name v = Outcome.returned (none, d1)) :
    d.sameUpToLoaders d1 := by
  unfold EnginePrivate.loadCppLibrary at h
  rcases h1 : EnginePrivate.loadCppLibraryLoop env name v d.m_pluginDirs d.m_pluginLoaders with
    ⟨r1, s1⟩
  rw [h1] at h
  cases r1 with
  | none =>
    simp only [Outcome.returned.injEq, Prod.mk.injEq, true_and] at h
    subst h
    exact ⟨rfl, rfl, rfl, rfl, rfl⟩
  | some p =>
    simp only at h
    split at h
    · simp at h
    · exact Outcome.noConfusion h

theorem enginePrivate_loadLibrary_congr (env : Env) (d e : EnginePrivate)
    (hde : d.sameUpToLoaders e) (name : String) (v : Nat) :
    Outcome.sameUpToLoaders (EnginePrivate.loadLibrary env d name v)
      (EnginePrivate.loadLibrary env e name v) := by
  have hs := loadScriptableLibrary_congr env d e hde name v
  unfold EnginePrivate.loadLibrary
  rcases h1 : EnginePrivate.loadScriptableLibrary env d name v with ⟨r1, s1⟩
  rcases h2 : EnginePrivate.loadScriptableLibrary env e name v with ⟨r2, s2⟩
  rw [h1, h2] at hs
  simp only at hs
  obtain ⟨hr, hs⟩ := hs
  subst hr
  cases r1 with
  | none => exact loadCppLibrary_congr env s1 s2 hs name v
  | some l => exact ⟨rfl, hs⟩

theorem enginePrivate_loadLibrary_none (env : Env) (d d1 : EnginePrivate) (name : String)
    (v : Nat)
    (h : EnginePrivate.loadLibrary env d name v = Outcome.returned (none, d1)) :
    d.sameUpToLoaders d1 := by
  unfold EnginePrivate.loadLibrary at h
  have hs := loadScriptableLibrary_none env d name v
  rcases h1 : EnginePrivate.loadScriptableLibrary env d name v with ⟨r1, s1⟩
  rw [h1] at h hs
  cases r1 with
  | none =>
    simp only at h hs
    have := hs trivial
    subst this
    exact loadCppLibrary_none env s1 d1 name v h
  | some l => simp at h

/-- The pointer returned at a version, read off a run of
`EnginePrivate::loadLibrary`. -/
theorem resolves_eq_returned (env : Env) (d : EnginePrivate) (name : String) (v : Nat)
    (x : Option TagLibraryInterface) :
    EnginePrivate.resolves env d name v = Outcome.returned x ↔
      ∃ d1, EnginePrivate.loadLibrary env d name v = Outcome.returned (x, d1) := by
  unfold EnginePrivate.resolves
  cases h : EnginePrivate.loadLibrary env d name v with
  | nullDereference => simp [Outcome.map]
  | returned r =>
    obtain ⟨lib, d2⟩ := r
    simp [Outcome.map]

/-- The pointer returned at a version does not depend on the plugin loaders
created so far. -/
theorem resolves_congr (env : Env) (d e : EnginePrivate) (hde : d.sameUpToLoaders e)
    (name : String) (v : Nat) :
    EnginePrivate.resolves env d name v = EnginePrivate.resolves env e name v := by
  have h := enginePrivate_loadLibrary_congr env d e hde name v
  unfold EnginePrivate.resolves
  cases h1 : EnginePrivate.loadLibrary env d name v with
  | nullDereference =>
    cases h2 : EnginePrivate.loadLibrary env e name v with
    | nullDereference => rfl
    | returned s => rw [h1, h2] at h; exact False.elim h
  | returned r =>
    cases h2 : EnginePrivate.loadLibrary env e name v with
    | nullDereference => rw [h1, h2] at h; exact False.elim h
    | returned s =>
      rw [h1, h2] at h
      simp only [Outcome.map]
      rw [h.1]

/-- One step of the version loop at a version that returns the pointer `x`:
the run on a state that agrees up to the plugin loaders returns `x` too, and
leaves a state that still agrees when `x` is null. -/
theorem loadLibrary_step (env : Env) (d d1 : EnginePrivate) (hsame : d.sameUpToLoaders d1)
    (name : String) (v : Nat) (x : Option TagLibraryInterface)
    (h : EnginePrivate.resolves env d name v = Outcome.returned x) :
    ∃ d2, EnginePrivate.loadLibrary env d1 name v = Outcome.returned (x, d2) ∧
      (x = none → d.sameUpToLoaders d2) := by
  rw [resolves_congr env d d1 hsame name v] at h
  obtain ⟨d2, hd2⟩ := (resolves_eq_returned env d1 name v x).mp h
  refine ⟨d2, hd2, ?_⟩
  intro hx
  subst hx
  exact sameUpToLoaders_trans hsame (enginePrivate_loadLibrary_none env d1 d2 name v hd2)

/-! ### Library resolution: the version loop -/

theorem uintDecrement_pos (m : Nat) (h0 : 0 < m) (hm : m < uintModulus) :
    uintDecrement m = m - 1 := by
  unfold uintDecrement uintModulus at *
  omega

theorem uintDecrement_lt (m : Nat) : uintDecrement m < uintModulus := by
  unfold uintDecrement
  exact Nat.mod_lt _ (by unfold uintModulus; norm_num)

theorem uintDecrement_zero : uintDecrement 0 = 4294967295 := by
  decide

theorem versionsDownTo_self (v : Nat) : versionsDownTo v v = [v] := by
  simp [versionsDownTo]

theorem versionsDownTo_succ (n v : Nat) (h : v ≤ n + 1) :
    versionsDownTo (n + 1) v = (n + 1) :: versionsDownTo n v := by
  unfold versionsDownTo
  have h1 : n + 1 + 1 - v = (n + 1 - v) + 1 := by omega
  rw [h1, List.range'_concat]
  simp
  omega

theorem versionsDownTo_empty (m lo : Nat) (h : m < lo) : versionsDownTo m lo = [] := by
  unfold versionsDownTo
  have : m + 1 - lo = 0 := by omega
  simp [this]

theorem mem_versionsDownTo (hi lo w : Nat) : w ∈ versionsDownTo hi lo ↔ lo ≤ w ∧ w ≤ hi := by
  unfold versionsDownTo
  rw [List.mem_reverse, List.mem_range'_1]
  omega

theorem versionsDownTo_pairwise (hi lo : Nat) :
    (versionsDownTo hi lo).Pairwise (fun a b => a > b) := by
  unfold versionsDownTo
  rw [List.pairwise_reverse]
  exact List.pairwise_lt_range' lo (hi + 1 - lo)

theorem length_versionsDownTo (hi lo : Nat) : (versionsDownTo hi lo).length = hi + 1 - lo := by
  simp [versionsDownTo]

/-- The loop, started at a version from which the next hit is `v`, returns
the library resolved at `v` after trying every version down to `v`. -/
theorem loadLibraryLoop_hit (env : Env) (d : EnginePrivate) (name : String) (v : Nat)
    (L : TagLibraryInterface)
    (hmin : env.GRANTLEE_MIN_PLUGIN_VERSION % uintModulus ≤ v)
    (hres : EnginePrivate.resolves env d name v = Outcome.returned (some L)) :
    ∀ (k m : Nat) (d1 : EnginePrivate) (tr : List Nat) (budget : Nat),
      d.sameUpToLoaders d1 → m = v + k → m < uintModulus →
      (∀ w, v < w → w ≤ m → EnginePrivate.resolves env d name w = Outcome.returned none) →
      k + 1 ≤ budget →
      ∃ r, Engine.loadLibraryLoop env name budget m d1 tr = some (Outcome.returned r) ∧
        r.library = some L ∧ r.attempts = tr ++ versionsDownTo m v := by
  intro k
  induction k with
  | zero =>
    intro m d1 tr budget hsame hm _ _ hb
    obtain ⟨b, rfl⟩ : ∃ b, budget = b + 1 := ⟨budget - 1, by omega⟩
    have hmv : m = v := by omega
    subst hmv
    obtain ⟨d2, hd2, _⟩ := loadLibrary_step env d d1 hsame name m (some L) hres
    unfold Engine.loadLibraryLoop
    rw [if_pos hmin, hd2]
    exact ⟨_, rfl, rfl, by simp [versionsDownTo_self]⟩
  | succ k ih =>
    intro m d1 tr budget hsame hm hlt hnone hb
    obtain ⟨b, rfl⟩ : ∃ b, budget = b + 1 := ⟨budget - 1, by omega⟩
    obtain ⟨d2, hd2, hs2⟩ := loadLibrary_step env d d1 hsame name m none
      (hnone m (by omega) (le_refl m))
    unfold Engine.loadLibraryLoop
    rw [if_pos (by omega : m ≥ env.GRANTLEE_MIN_PLUGIN_VERSION % uintModulus), hd2]
    simp only
    rw [uintDecrement_pos m (by omega) hlt]
    obtain ⟨r, hr, hlib, hatt⟩ := ih (m - 1) d2 (tr ++ [m]) b
      (hs2 rfl) (by omega) (by omega)
      (fun w hw1 hw2 => hnone w hw1 (by omega)) (by omega)
    refine ⟨r, hr, hlib, ?_⟩
    rw [hatt]
    have hm1 : m = (m - 1) + 1 := by omega
    conv_rhs => rw [hm1, versionsDownTo_succ (m - 1) v (by omega)]
    simp
    omega

/-- With a positive minimum and no hit from `m` down to the minimum, the
loop returns null after trying exactly those versions. -/
theorem loadLibraryLoop_miss (env : Env) (d : EnginePrivate) (name : String)
    (hpos : 0 < env.GRANTLEE_MIN_PLUGIN_VERSION % uintModulus) :
    ∀ (k m : Nat) (d1 : EnginePrivate) (tr : List Nat) (budget : Nat),
      d.sameUpToLoaders d1 → m + 1 - env.GRANTLEE_MIN_PLUGIN_VERSION % uintModulus = k →
      m < uintModulus →
      (∀ w, env.GRANTLEE_MIN_PLUGIN_VERSION % uintModulus ≤ w → w ≤ m →
        EnginePrivate.resolves env d name w = Outcome.returned none) →
      k + 1 ≤ budget →
      ∃ r, Engine.loadLibraryLoop env name budget m d1 tr = some (Outcome.returned r) ∧
        r.library = none ∧
        r.attempts = tr ++ versionsDownTo m (env.GRANTLEE_MIN_PLUGIN_VERSION % uintModulus) ∧
        d.sameUpToLoaders r.state := by
  intro k
  induction k with
  | zero =>
    intro m d1 tr budget hsame hm _ _ hb
    obtain ⟨b, rfl⟩ : ∃ b, budget = b + 1 := ⟨budget - 1, by omega⟩
    unfold Engine.loadLibraryLoop
    rw [if_neg (by omega)]
    have he := versionsDownTo_empty m (env.GRANTLEE_MIN_PLUGIN_VERSION % uintModulus) (by omega)
    exact ⟨_, rfl, rfl, by simp [he], hsame⟩
  | succ k ih =>
    intro m d1 tr budget hsame hm hlt hnone hb
    obtain ⟨b, rfl⟩ : ∃ b, budget = b + 1 := ⟨budget - 1, by omega⟩
    obtain ⟨d2, hd2, hs2⟩ := loadLibrary_step env d d1 hsame name m none
      (hnone m (by omega) (le_refl m))
    unfold Engine.loadLibraryLoop
    rw [if_pos (by omega : m ≥ env.GRANTLEE_MIN_PLUGIN_VERSION % uintModulus), hd2]
    simp only
    rw [uintDecrement_pos m (by omega) hlt]
    obtain ⟨r, hr, hlib, hatt, hst⟩ := ih (m - 1) d2 (tr ++ [m]) b
      (hs2 rfl) (by omega) (by omega)
      (fun w hw1 hw2 => hnone w hw1 (by omega)) (by omega)
    refine ⟨r, hr, hlib, ?_, hst⟩
    rw [hatt]
    have hm1 : m = (m - 1) + 1 := by omega
    conv_rhs =>
      rw [hm1, versionsDownTo_succ (m - 1) (env.GRANTLEE_MIN_PLUGIN_VERSION % uintModulus)
        (by omega)]
    simp
    omega

/-- With minimum 0 the guard of the loop is always true: when no version
resolves, no budget is enough for the loop to return. -/
theorem loadLibraryLoop_diverges (env : Env) (d : EnginePrivate) (name : String)
    (hzero : env.GRANTLEE_MIN_PLUGIN_VERSION % uintModulus = 0)
    (hnone : ∀ w, w < uintModulus →
      EnginePrivate.resolves env d name w = Outcome.returned none) :
    ∀ (budget m : Nat) (d1 : EnginePrivate) (tr : List Nat),
      d.sameUpToLoaders d1 → m < uintModulus →
      Engine.loadLibraryLoop env name budget m d1 tr = none := by
  intro budget
  induction budget with
  | zero => intro m d1 tr _ _; rfl
  | succ b ih =>
    intro m d1 tr hsame hlt
    obtain ⟨d2, hd2, hs2⟩ := loadLibrary_step env d d1 hsame name m none (hnone m hlt)
    unfold Engine.loadLibraryLoop
    rw [if_pos (by omega : m ≥ env.GRANTLEE_MIN_PLUGIN_VERSION % uintModulus), hd2]
    simp only
    exact ih _ d2 _ (hs2 rfl) (uintDecrement_lt m)

/-- A run of the loop that returns null has changed at most the list of
plugin loaders. -/
theorem loadLibraryLoop_null (env : Env) (name : String) :
    ∀ (budget m : Nat) (d1 : EnginePrivate) (tr : List Nat) (r : LoadResult),
      Engine.loadLibraryLoop env name budget m d1 tr = some (Outcome.returned r) →
      r.library = none → d1.sameUpToLoaders r.state := by
  intro budget
  induction budget with
  | zero => intro m d1 tr r h; simp [Engine.loadLibraryLoop] at h
  | succ b ih =>
    intro m d1 tr r h hnull
    unfold Engine.loadLibraryLoop at h
    split at h
    · cases hl : EnginePrivate.loadLibrary env d1 name m with
      | nullDereference =>
        rw [hl] at h
        simp at h
      | returned x =>
        obtain ⟨lib, d2⟩ := x
        rw [hl] at h
        cases lib with
        | none =>
          simp only at h
          exact sameUpToLoaders_trans (enginePrivate_loadLibrary_none env d1 d2 name m hl)
            (ih _ d2 _ r h hnull)
        | some l =>
          simp only [Option.some.injEq, Outcome.returned.injEq] at h
          subst h
          simp at hnull
    · simp only [Option.some.injEq, Outcome.returned.injEq] at h
      subst h
      exact sameUpToLoaders_refl d1

/-- Two states that agree up to the plugin loaders give the same observable
run of the loop. -/
theorem loadLibraryLoop_congr (env : Env) (name : String) :
    ∀ (budget m : Nat) (d e : EnginePrivate) (tr : List Nat), d.sameUpToLoaders e →
      (Engine.loadLibraryLoop env name budget m d tr).map (Outcome.map LoadResult.observed) =
        (Engine.loadLibraryLoop env name budget m e tr).map
          (Outcome.map LoadResult.observed) := by
  intro budget
  induction budget with
  | zero => intro m d e tr _; rfl
  | succ b ih =>
    intro m d e tr hsame
    have hc := enginePrivate_loadLibrary_congr env d e hsame name m
    unfold Engine.loadLibraryLoop
    split
    · cases hl : EnginePrivate.loadLibrary env d name m with
      | nullDereference =>
        cases hl2 : EnginePrivate.loadLibrary env e name m with
        | nullDereference => rfl
        | returned y => rw [hl, hl2] at hc; exact False.elim hc
      | returned x =>
        cases hl2 : EnginePrivate.loadLibrary env e name m with
        | nullDereference => rw [hl, hl2] at hc; exact False.elim hc
        | returned y =>
          obtain ⟨lib, d2⟩ := x
          obtain ⟨lib2, e2⟩ := y
          rw [hl, hl2] at hc
          obtain ⟨h1, h2⟩ := hc
          simp only at h1 h2
          subst h1
          cases lib with
          | none => exact ih _ d2 e2 _ h2
          | some l =>
            simp only [Option.map_some', Outcome.map, LoadResult.observed, h2.1, h2.2.1]
    · simp only [Option.map_some', Outcome.map, LoadResult.observed, hsame.1, hsame.2.1]

theorem engine_loadLibrary_congr (env : Env) (budget : Nat) (d e : EnginePrivate)
    (name : String) (hsame : d.sameUpToLoaders e) :
    (Engine.loadLibrary env budget d name).map (Outcome.map LoadResult.observed) =
      (Engine.loadLibrary env budget e name).map (Outcome.map LoadResult.observed) := by
  unfold Engine.loadLibrary
  rw [← hsame.1]
  split
  · simp only [Option.map_some', Outcome.map, LoadResult.observed, hsame.1, hsame.2.1]
  · split
    · simp only [Option.map_some', Outcome.map, LoadResult.observed, hsame.1, hsame.2.1]
    · exact loadLibraryLoop_congr env name budget _ d e [] hsame

theorem qhash_value_insert (h : List (String × TagLibraryInterface)) (key : String)
    (value : TagLibraryInterface) : QHash.value (QHash.insert h key value) key = some value := by
  simp [QHash.value, QHash.insert, List.lookup]

/-- The script loop only ever returns containers. -/
theorem loadScriptableLibraryLoop_not_plugin (env : Env) (d : EnginePrivate)
    (host : TagLibraryInterface) (name : String) (v : Nat) (dirs : List String) (p : Nat) :
    (EnginePrivate.loadScriptableLibraryLoop env d host name v dirs).1 ≠
      some (TagLibraryInterface.plugin p) := by
  induction dirs with
  | nil => simp [EnginePrivate.loadScriptableLibraryLoop]
  | cons dir rest ih =>
    simp only [EnginePrivate.loadScriptableLibraryLoop]
    split
    · exact ih
    · simp

theorem loadScriptableLibrary_not_plugin (env : Env) (d : EnginePrivate) (name : String)
    (v p : Nat) :
    (EnginePrivate.loadScriptableLibrary env d name v).1 ≠
      some (TagLibraryInterface.plugin p) := by
  unfold EnginePrivate.loadScriptableLibrary
  split
  · simp
  · exact loadScriptableLibraryLoop_not_plugin env d _ name v _ p

/-- A library the C++ path returns is in the cache afterwards. -/
theorem loadCppLibrary_caches (env : Env) (d d1 : EnginePrivate) (name : String) (v : Nat)
    (L : TagLibraryInterface)
    (h : EnginePrivate.loadCppLibrary env d name v = Outcome.returned (some L, d1)) :
    QHash.value d1.m_libraries name = some L := by
  unfold EnginePrivate.loadCppLibrary at h
  rcases h1 : EnginePrivate.loadCppLibraryLoop env name v d.m_pluginDirs d.m_pluginLoaders with
    ⟨r1, s1⟩
  rw [h1] at h
  cases r1 with
  | none => simp at h
  | some p =>
    simp only at h
    split at h
    · simp only [Outcome.returned.injEq, Prod.mk.injEq, Option.some.injEq] at h
      obtain ⟨hL, hd⟩ := h
      subst hL
      subst hd
      exact qhash_value_insert _ _ _
    · exact Outcome.noConfusion h

theorem enginePrivate_loadLibrary_plugin_caches (env : Env) (d d1 : EnginePrivate)
    (name : String) (v p : Nat)
    (h : EnginePrivate.loadLibrary env d name v =
      Outcome.returned (some (TagLibraryInterface.plugin p), d1)) :
    QHash.value d1.m_libraries name = some (TagLibraryInterface.plugin p) := by
  unfold EnginePrivate.loadLibrary at h
  have hs := loadScriptableLibrary_not_plugin env d name v p
  rcases h1 : EnginePrivate.loadScriptableLibrary env d name v with ⟨r1, s1⟩
  rw [h1] at h hs
  cases r1 with
  | none => exact loadCppLibrary_caches env s1 d1 name v _ h
  | some l =>
    simp only [Outcome.returned.injEq, Prod.mk.injEq, Option.some.injEq] at h
    exact absurd (congrArg some h.1) hs

theorem loadLibraryLoop_plugin_caches (env : Env) (name : String) (p : Nat) :
    ∀ (budget m : Nat) (d1 : EnginePrivate) (tr : List Nat) (r : LoadResult),
      Engine.loadLibraryLoop env name budget m d1 tr = some (Outcome.returned r) →
      r.library = some (TagLibraryInterface.plugin p) →
      QHash.value r.state.m_libraries name = some (TagLibraryInterface.plugin p) := by
  intro budget
  induction budget with
  | zero => intro m d1 tr r h; simp [Engine.loadLibraryLoop] at h
  | succ b ih =>
    intro m d1 tr r h hlib
    unfold Engine.loadLibraryLoop at h
    split at h
    · cases hl : EnginePrivate.loadLibrary env d1 name m with
      | nullDereference =>
        rw [hl] at h
        simp at h
      | returned x =>
        obtain ⟨lib, d2⟩ := x
        rw [hl] at h
        cases lib with
        | none => exact ih _ d2 _ r h hlib
        | some l =>
          simp only [Option.some.injEq, Outcome.returned.injEq] at h
          subst h
          simp only [Option.some.injEq] at hlib ⊢
          subst hlib
          exact enginePrivate_loadLibrary_plugin_caches env d1 d2 name m p hl
    · simp only [Option.some.injEq, Outcome.returned.injEq] at h
      subst h
      simp at hlib

/-- The C++ half of idempotence: once `Engine::loadLibrary` has returned a
plugin library, every later load of the same name returns that library from
the cache and changes nothing. -/
theorem loadLibrary_plugin_idempotent (env : Env) (budget : Nat) (d : EnginePrivate)
    (name : String) (r : LoadResult) (p : Nat)
    (hrun : Engine.loadLibrary env budget d name = some (Outcome.returned r))
    (hlib : r.library = some (TagLibraryInterface.plugin p)) (budget2 : Nat) :
    Engine.loadLibrary env budget2 r.state name =
      some (Outcome.returned
        { library := some (TagLibraryInterface.plugin p), state := r.state, attempts := [] }) := by
  have hname : name ≠ scriptableLibName := by
    intro hn
    unfold Engine.loadLibrary at hrun
    rw [if_pos hn] at hrun
    simp only [Option.some.injEq, Outcome.returned.injEq] at hrun
    subst hrun
    simp at hlib
  have hval : QHash.value r.state.m_libraries name = some (TagLibraryInterface.plugin p) := by
    unfold Engine.loadLibrary at hrun
    rw [if_neg hname] at hrun
    split at hrun
    · simp only [Option.some.injEq, Outcome.returned.injEq] at hrun
      subst hrun
      exact hlib
    · exact loadLibraryLoop_plugin_caches env name p budget _ d [] r hrun hlib
  unfold Engine.loadLibrary
  rw [if_neg hname]
  have hc : QHash.contains r.state.m_libraries name = true := by
    unfold QHash.contains
    unfold QHash.value at hval
    rw [hval]
    rfl
  rw [if_pos hc, hval]

/-! ### Library resolution: main theorems -/

/-- The C++ path ends in the null dereference exactly when a plugin file
loads and its root object does not implement `TagLibraryInterface`. -/
theorem loadCppLibrary_nullDereference_iff (env : Env) (d : EnginePrivate) (name : String)
    (v : Nat) :
    EnginePrivate.loadCppLibrary env d name v = Outcome.nullDereference ↔
      ∃ plugin,
        (EnginePrivate.loadCppLibraryLoop env name v d.m_pluginDirs d.m_pluginLoaders).1 =
          some plugin ∧ env.isTagLibraryInterface plugin = false := by
  unfold EnginePrivate.loadCppLibrary
  rcases h1 : EnginePrivate.loadCppLibraryLoop env name v d.m_pluginDirs d.m_pluginLoaders with
    ⟨r1, s1⟩
  cases r1 with
  | none => simp
  | some p =>
    simp only [Option.some.injEq, exists_eq_left']
    cases hc : env.isTagLibraryInterface p <;> simp

/-- Where every plugin that loads implements `TagLibraryInterface`, no
resolution ends in the null dereference. -/
theorem loadLibrary_returns_of_cast_ok (env : Env)
    (hcast : ∀ plugin, env.isTagLibraryInterface plugin = true) (d : EnginePrivate)
    (name : String) (v : Nat) :
    EnginePrivate.resolves env d name v ≠ Outcome.nullDereference := by
  unfold EnginePrivate.resolves EnginePrivate.loadLibrary
  rcases h1 : EnginePrivate.loadScriptableLibrary env d name v with ⟨r1, s1⟩
  cases r1 with
  | some l => simp [Outcome.map]
  | none =>
    simp only
    cases h2 : EnginePrivate.loadCppLibrary env s1 name v with
    | returned x => simp [Outcome.map]
    | nullDereference =>
      obtain ⟨plugin, _, hp⟩ := (loadCppLibrary_nullDereference_iff env s1 name v).mp h2
      rw [hcast plugin] at hp
      exact Bool.noConfusion hp

theorem resolves_eq_nullDereference (env : Env) (d : EnginePrivate) (name : String) (v : Nat) :
    EnginePrivate.resolves env d name v = Outcome.nullDereference ↔
      EnginePrivate.loadLibrary env d name v = Outcome.nullDereference := by
  unfold EnginePrivate.resolves
  cases h : EnginePrivate.loadLibrary env d name v with
  | nullDereference => simp [Outcome.map]
  | returned r => simp [Outcome.map]

/-- A resolution that neither ends in the null dereference nor misses
returns a library. -/
theorem resolves_cases (o : Outcome (Option TagLibraryInterface))
    (h1 : o ≠ Outcome.nullDereference) (h2 : o ≠ Outcome.returned none) :
    ∃ L, o = Outcome.returned (some L) := by
  cases o with
  | nullDereference => exact absurd rfl h1
  | returned x =>
    cases x with
    | none => exact absurd rfl h2
    | some L => exact ⟨L, rfl⟩

/-- The loop, started at a version from which the first version that does
not miss is `v`, where the plugin found at `v` does not implement
`TagLibraryInterface`: the loop reaches the null dereference. -/
theorem loadLibraryLoop_nullDereference (env : Env) (d : EnginePrivate) (name : String)
    (v : Nat)
    (hmin : env.GRANTLEE_MIN_PLUGIN_VERSION % uintModulus ≤ v)
    (hres : EnginePrivate.resolves env d name v = Outcome.nullDereference) :
    ∀ (k m : Nat) (d1 : EnginePrivate) (tr : List Nat) (budget : Nat),
      d.sameUpToLoaders d1 → m = v + k → m < uintModulus →
      (∀ w, v < w → w ≤ m → EnginePrivate.resolves env d name w = Outcome.returned none) →
      k + 1 ≤ budget →
      Engine.loadLibraryLoop env name budget m d1 tr = some Outcome.nullDereference := by
  intro k
  induction k with
  | zero =>
    intro m d1 tr budget hsame hm _ _ hb
    obtain ⟨b, rfl⟩ : ∃ b, budget = b + 1 := ⟨budget - 1, by omega⟩
    have hmv : m = v := by omega
    subst hmv
    rw [resolves_congr env d d1 hsame name m, resolves_eq_nullDereference] at hres
    unfold Engine.loadLibraryLoop
    rw [if_pos hmin, hres]
  | succ k ih =>
    intro m d1 tr budget hsame hm hlt hnone hb
    obtain ⟨b, rfl⟩ : ∃ b, budget = b + 1 := ⟨budget - 1, by omega⟩
    obtain ⟨d2, hd2, hs2⟩ := loadLibrary_step env d d1 hsame name m none
      (hnone m (by omega) (le_refl m))
    unfold Engine.loadLibraryLoop
    rw [if_pos (by omega : m ≥ env.GRANTLEE_MIN_PLUGIN_VERSION % uintModulus), hd2]
    simp only
    rw [uintDecrement_pos m (by omega) hlt]
    exact ih (m - 1) d2 (tr ++ [m]) b (hs2 rfl) (by omega) (by omega)
      (fun w hw1 hw2 => hnone w hw1 (by omega)) (by omega)

/-- The unchecked `qobject_cast` in `EnginePrivate::loadCppLibrary`: when the
newest version of the range that does not miss finds a plugin that is no
`TagLibraryInterface`, `Engine::loadLibrary` dereferences a null pointer
instead of going on to an older version. -/
theorem loadLibrary_nullDereference (env : Env) (d : EnginePrivate) (name : String)
    (budget v : Nat)
    (hname : name ≠ scriptableLibName)
    (hcache : QHash.contains d.m_libraries name = false)
    (hminor : env.GRANTLEE_VERSION_MINOR < uintModulus)
    (hmin : env.GRANTLEE_MIN_PLUGIN_VERSION < uintModulus)
    (hbudget : env.GRANTLEE_VERSION_MINOR + 2 ≤ budget)
    (hv1 : env.GRANTLEE_MIN_PLUGIN_VERSION ≤ v) (hv2 : v ≤ env.GRANTLEE_VERSION_MINOR)
    (hres : EnginePrivate.resolves env d name v = Outcome.nullDereference)
    (hmiss : ∀ w, v < w → w ≤ env.GRANTLEE_VERSION_MINOR →
      EnginePrivate.resolves env d name w = Outcome.returned none) :
    Engine.loadLibrary env budget d name = some Outcome.nullDereference := by
  have hminmod : env.GRANTLEE_MIN_PLUGIN_VERSION % uintModulus =
      env.GRANTLEE_MIN_PLUGIN_VERSION := Nat.mod_eq_of_lt hmin
  have hminormod : env.GRANTLEE_VERSION_MINOR % uintModulus = env.GRANTLEE_VERSION_MINOR :=
    Nat.mod_eq_of_lt hminor
  unfold Engine.loadLibrary
  rw [if_neg hname, hcache, hminormod]
  simp only [Bool.false_eq_true, if_false]
  exact loadLibraryLoop_nullDereference env d name v (by omega) hres
    (env.GRANTLEE_VERSION_MINOR - v) env.GRANTLEE_VERSION_MINOR d [] budget
    (sameUpToLoaders_refl d) (by omega) hminor hmiss (by omega)

/-- The null dereference at a concrete installation: the file found for
`qux` at minor version 2 loads but is no `TagLibraryInterface`; the load does
not fall back to the proper plugin of minor version 1. -/
theorem loadLibrary_foreign_plugin_dereferences_null :
    EnginePrivate.resolves foreignPluginEnv (engineWithDirs ["/p"]) "qux" 2 =
        Outcome.nullDereference ∧
      EnginePrivate.resolves foreignPluginEnv (engineWithDirs ["/p"]) "qux" 1 =
        Outcome.returned (some (TagLibraryInterface.plugin 4)) ∧
      Engine.loadLibrary foreignPluginEnv 3 (engineWithDirs ["/p"]) "qux" =
        some Outcome.nullDereference :=
  ⟨rfl, rfl, rfl⟩

/-- Newest version first, away from the two defects of the search (the wrap
of the counter below zero and the unchecked cast): for a library name other
than the scriptable-tags name that is not in the cache, provided no plugin
found in the range fails the cast, and provided the minimum plugin version is
positive or some version between the minimum and the current minor resolves,
`Engine::loadLibrary` returns; the versions it hands to
`EnginePrivate::loadLibrary` are strictly descending and all lie between the
minimum and the current minor; the library returned is the one resolved at
the greatest version of that range at which resolution succeeds, after
exactly the versions from the current minor down to that one were tried
(so version beats directory order); and when no version of the range
resolves the result is null after every version of the range was tried. -/
theorem loadLibrary_newest_version_first (env : Env) (d : EnginePrivate) (name : String)
    (budget : Nat)
    (hname : name ≠ scriptableLibName)
    (hcache : QHash.contains d.m_libraries name = false)
    (hminor : env.GRANTLEE_VERSION_MINOR < uintModulus)
    (hmin : env.GRANTLEE_MIN_PLUGIN_VERSION < uintModulus)
    (hbudget : env.GRANTLEE_VERSION_MINOR + 2 ≤ budget)
    (hcast : ∀ v, env.GRANTLEE_MIN_PLUGIN_VERSION ≤ v → v ≤ env.GRANTLEE_VERSION_MINOR →
      EnginePrivate.resolves env d name v ≠ Outcome.nullDereference)
    (hsafe : 0 < env.GRANTLEE_MIN_PLUGIN_VERSION ∨
      ∃ v, env.GRANTLEE_MIN_PLUGIN_VERSION ≤ v ∧ v ≤ env.GRANTLEE_VERSION_MINOR ∧
        EnginePrivate.resolves env d name v ≠ Outcome.returned none) :
    ∃ r, Engine.loadLibrary env budget d name = some (Outcome.returned r) ∧
      r.attempts.Pairwise (fun a b => a > b) ∧
      (∀ w ∈ r.attempts,
        env.GRANTLEE_MIN_PLUGIN_VERSION ≤ w ∧ w ≤ env.GRANTLEE_VERSION_MINOR) ∧
      (∀ v L, env.GRANTLEE_MIN_PLUGIN_VERSION ≤ v → v ≤ env.GRANTLEE_VERSION_MINOR →
        EnginePrivate.resolves env d name v = Outcome.returned (some L) →
        (∀ w, v < w → w ≤ env.GRANTLEE_VERSION_MINOR →
          EnginePrivate.resolves env d name w = Outcome.returned none) →
        r.library = some L ∧ r.attempts = versionsDownTo env.GRANTLEE_VERSION_MINOR v) ∧
      ((∀ v, env.GRANTLEE_MIN_PLUGIN_VERSION ≤ v → v ≤ env.GRANTLEE_VERSION_MINOR →
          EnginePrivate.resolves env d name v = Outcome.returned none) →
        r.library = none ∧
          r.attempts =
            versionsDownTo env.GRANTLEE_VERSION_MINOR env.GRANTLEE_MIN_PLUGIN_VERSION) := by
  have hminmod : env.GRANTLEE_MIN_PLUGIN_VERSION % uintModulus =
      env.GRANTLEE_MIN_PLUGIN_VERSION := Nat.mod_eq_of_lt hmin
  have hminormod : env.GRANTLEE_VERSION_MINOR % uintModulus = env.GRANTLEE_VERSION_MINOR :=
    Nat.mod_eq_of_lt hminor
  have hrun : Engine.loadLibrary env budget d name =
      Engine.loadLibraryLoop env name budget env.GRANTLEE_VERSION_MINOR d [] := by
    unfold Engine.loadLibrary
    rw [if_neg hname, hcache, hminormod]
    simp
  by_cases hex : ∃ v, env.GRANTLEE_MIN_PLUGIN_VERSION ≤ v ∧ v ≤ env.GRANTLEE_VERSION_MINOR ∧
      EnginePrivate.resolves env d name v ≠ Outcome.returned none
  · -- some version in range resolves: take the greatest one
    obtain ⟨v0, hv0min, hv0max, hv0⟩ := hex
    let P : Nat → Prop := fun v =>
      env.GRANTLEE_MIN_PLUGIN_VERSION ≤ v ∧
        EnginePrivate.resolves env d name v ≠ Outcome.returned none
    have hP0 : P v0 := ⟨hv0min, hv0⟩
    have hspec : P (Nat.findGreatest P env.GRANTLEE_VERSION_MINOR) :=
      Nat.findGreatest_spec hv0max hP0
    have hle : Nat.findGreatest P env.GRANTLEE_VERSION_MINOR ≤ env.GRANTLEE_VERSION_MINOR :=
      Nat.findGreatest_le _
    have hgreat : ∀ w, Nat.findGreatest P env.GRANTLEE_VERSION_MINOR < w →
        w ≤ env.GRANTLEE_VERSION_MINOR → ¬ P w :=
      fun w h1 h2 => Nat.findGreatest_is_greatest h1 h2
    generalize Nat.findGreatest P env.GRANTLEE_VERSION_MINOR = vs at hspec hle hgreat
    obtain ⟨hvsmin, hvs⟩ := hspec
    obtain ⟨Ls, hLs⟩ := resolves_cases _ (hcast vs hvsmin hle) hvs
    have hmiss : ∀ w, vs < w → w ≤ env.GRANTLEE_VERSION_MINOR →
        EnginePrivate.resolves env d name w = Outcome.returned none := by
      intro w h1 h2
      by_contra hc
      exact hgreat w h1 h2 ⟨by omega, hc⟩
    obtain ⟨r, hr, hlib, hatt⟩ := loadLibraryLoop_hit env d name vs Ls (by omega) hLs
      (env.GRANTLEE_VERSION_MINOR - vs) env.GRANTLEE_VERSION_MINOR d [] budget
      (sameUpToLoaders_refl d) (by omega) hminor hmiss (by omega)
    rw [List.nil_append] at hatt
    refine ⟨r, hrun.trans hr, ?_, ?_, ?_, ?_⟩
    · rw [hatt]; exact versionsDownTo_pairwise _ _
    · intro w hw
      rw [hatt, mem_versionsDownTo] at hw
      omega
    · intro v L hv1 hv2 hvL hvmiss
      have h1 : ¬ vs < v := by
        intro hlt
        have := hmiss v hlt hv2
        rw [hvL] at this
        simp at this
      have h2 : ¬ v < vs := by
        intro hlt
        have := hvmiss vs hlt hle
        rw [hLs] at this
        simp at this
      have hveq : v = vs := by omega
      subst hveq
      rw [hLs] at hvL
      simp only [Outcome.returned.injEq, Option.some.injEq] at hvL
      exact ⟨hlib.trans (congrArg some hvL), hatt⟩
    · intro hall
      exact absurd (hall vs hvsmin hle) hvs
  · -- nothing in range resolves, so the minimum is positive
    have hpos : 0 < env.GRANTLEE_MIN_PLUGIN_VERSION := by
      rcases hsafe with h | h
      · exact h
      · exact absurd h hex
    have hall : ∀ w, env.GRANTLEE_MIN_PLUGIN_VERSION % uintModulus ≤ w →
        w ≤ env.GRANTLEE_VERSION_MINOR →
        EnginePrivate.resolves env d name w = Outcome.returned none := by
      intro w h1 h2
      by_contra hc
      exact hex ⟨w, by omega, h2, hc⟩
    obtain ⟨r, hr, hlib, hatt, _⟩ := loadLibraryLoop_miss env d name (by omega)
      (env.GRANTLEE_VERSION_MINOR + 1 - env.GRANTLEE_MIN_PLUGIN_VERSION % uintModulus)
      env.GRANTLEE_VERSION_MINOR d [] budget (sameUpToLoaders_refl d) rfl hminor hall
      (by omega)
    rw [List.nil_append, hminmod] at hatt
    refine ⟨r, hrun.trans hr, ?_, ?_, ?_, ?_⟩
    · rw [hatt]; exact versionsDownTo_pairwise _ _
    · intro w hw
      rw [hatt, mem_versionsDownTo] at hw
      omega
    · intro v L hv1 hv2 hvL _
      have := hall v (by omega) hv2
      rw [hvL] at this
      simp at this
    · intro _
      exact ⟨hlib, hatt⟩

/-- C8: when `Engine::loadLibrary( name )` returns null, the library cache
(and the list of scriptable libraries) after the call equals the one before,
and every later `Engine::loadLibrary`, of any name and with any step budget,
ends the same way as it would have without the failed call: it returns the
same pointer, leaves the same cache and list of scriptable libraries and
tries the same versions. -/
theorem loadLibrary_miss_leaves_cache (env : Env) (budget : Nat) (d : EnginePrivate)
    (name : String) (r : LoadResult)
    (hrun : Engine.loadLibrary env budget d name = some (Outcome.returned r))
    (hnull : r.library = none) :
    r.state.m_libraries = d.m_libraries ∧
      r.state.m_scriptableLibraries = d.m_scriptableLibraries ∧
      ∀ (other : String) (budget2 : Nat),
        (Engine.loadLibrary env budget2 r.state other).map (Outcome.map LoadResult.observed) =
          (Engine.loadLibrary env budget2 d other).map (Outcome.map LoadResult.observed) := by
  have hsame : d.sameUpToLoaders r.state := by
    unfold Engine.loadLibrary at hrun
    split at hrun
    · simp only [Option.some.injEq, Outcome.returned.injEq] at hrun
      subst hrun
      exact sameUpToLoaders_refl d
    · split at hrun
      · simp only [Option.some.injEq, Outcome.returned.injEq] at hrun
        subst hrun
        exact sameUpToLoaders_refl d
      · exact loadLibraryLoop_null env name budget _ d [] r hrun hnull
  refine ⟨hsame.1.symm, hsame.2.1.symm, ?_⟩
  intro other budget2
  exact engine_loadLibrary_congr env budget2 r.state d other (sameUpToLoaders_symm hsame)

/-- Newest version first at a concrete installation: version 0.2 with
minimum 1, the plugin `bar` present for minor version 1 in the first plugin
directory and for minor version 2 in the second. -/
theorem loadLibrary_newest_version_first_witness :
    "bar" ≠ scriptableLibName ∧
      QHash.contains (engineWithDirs ["/a", "/b"]).m_libraries "bar" = false ∧
      priorityEnv.GRANTLEE_VERSION_MINOR < uintModulus ∧
      priorityEnv.GRANTLEE_MIN_PLUGIN_VERSION < uintModulus ∧
      priorityEnv.GRANTLEE_VERSION_MINOR + 2 ≤ 4 ∧
      0 < priorityEnv.GRANTLEE_MIN_PLUGIN_VERSION ∧
      ∃ r, Engine.loadLibrary priorityEnv 4 (engineWithDirs ["/a", "/b"]) "bar" =
          some (Outcome.returned r) ∧
        r.attempts.Pairwise (fun a b => a > b) ∧
        (∀ w ∈ r.attempts,
          priorityEnv.GRANTLEE_MIN_PLUGIN_VERSION ≤ w ∧ w ≤ priorityEnv.GRANTLEE_VERSION_MINOR) ∧
        (∀ v L, priorityEnv.GRANTLEE_MIN_PLUGIN_VERSION ≤ v →
          v ≤ priorityEnv.GRANTLEE_VERSION_MINOR →
          EnginePrivate.resolves priorityEnv (engineWithDirs ["/a", "/b"]) "bar" v =
            Outcome.returned (some L) →
          (∀ w, v < w → w ≤ priorityEnv.GRANTLEE_VERSION_MINOR →
            EnginePrivate.resolves priorityEnv (engineWithDirs ["/a", "/b"]) "bar" w =
              Outcome.returned none) →
          r.library = some L ∧
            r.attempts = versionsDownTo priorityEnv.GRANTLEE_VERSION_MINOR v) ∧
        ((∀ v, priorityEnv.GRANTLEE_MIN_PLUGIN_VERSION ≤ v →
            v ≤ priorityEnv.GRANTLEE_VERSION_MINOR →
            EnginePrivate.resolves priorityEnv (engineWithDirs ["/a", "/b"]) "bar" v =
              Outcome.returned none) →
          r.library = none ∧
            r.attempts =
              versionsDownTo priorityEnv.GRANTLEE_VERSION_MINOR
                priorityEnv.GRANTLEE_MIN_PLUGIN_VERSION) :=
  ⟨by decide, by decide, by decide, by decide, by decide, by decide,
    loadLibrary_newest_version_first priorityEnv (engineWithDirs ["/a", "/b"]) "bar" 4
      (by decide) (by decide) (by decide) (by decide) (by decide)
      (fun v _ _ => loadLibrary_returns_of_cast_ok priorityEnv (fun _ => rfl) _ _ v)
      (Or.inl (by decide))⟩

/-- Version beats directory order: the later directory holds the newer
version and wins. -/
theorem loadLibrary_prefers_newer_version_in_later_dir :
    EnginePrivate.resolves priorityEnv (engineWithDirs ["/a", "/b"]) "bar" 1 =
        Outcome.returned (some (TagLibraryInterface.plugin 1)) ∧
      EnginePrivate.resolves priorityEnv (engineWithDirs ["/a", "/b"]) "bar" 2 =
        Outcome.returned (some (TagLibraryInterface.plugin 2)) ∧
      (Engine.loadLibrary priorityEnv 4 (engineWithDirs ["/a", "/b"]) "bar").map
          (Outcome.map LoadResult.observed) =
        some (Outcome.returned
          (some (TagLibraryInterface.plugin 2), [("bar", TagLibraryInterface.plugin 2)],
            [], [2])) :=
  ⟨rfl, rfl, rfl⟩

/-- C1 at the failing input: with GRANTLEE_MIN_PLUGIN_VERSION = 0 and
GRANTLEE_VERSION_MINOR = 0, for the name `x` (not the scriptable-tags name,
not cached), after the miss at version 0 the unsigned counter wraps to
4294967295: a version above the current minor is tried and the library found
there is returned, where the search should try no version outside the range
from the minimum to the current minor. -/
theorem loadLibrary_wraps_below_zero :
    "x" ≠ scriptableLibName ∧
      QHash.contains (engineWithDirs ["/p"]).m_libraries "x" = false ∧
      wrapEnv.GRANTLEE_MIN_PLUGIN_VERSION ≤ wrapEnv.GRANTLEE_VERSION_MINOR ∧
      EnginePrivate.resolves wrapEnv (engineWithDirs ["/p"]) "x" 0 = Outcome.returned none ∧
      ∃ r, Engine.loadLibrary wrapEnv 2 (engineWithDirs ["/p"]) "x" =
          some (Outcome.returned r) ∧
        r.library = some (TagLibraryInterface.plugin 1) ∧
        r.attempts = [0, 4294967295] ∧
        ¬ (∀ w ∈ r.attempts,
          wrapEnv.GRANTLEE_MIN_PLUGIN_VERSION ≤ w ∧ w ≤ wrapEnv.GRANTLEE_VERSION_MINOR) :=
  ⟨by decide, by decide, by decide, by decide, _, rfl, rfl, rfl, by decide⟩

/-- With a positive minimum plugin version, a load of an uncached name that
resolves at no version of the range returns null after exactly
GRANTLEE_VERSION_MINOR + 1 - GRANTLEE_MIN_PLUGIN_VERSION attempts. -/
theorem loadLibrary_miss_bounded (env : Env) (d : EnginePrivate) (name : String)
    (budget : Nat)
    (hname : name ≠ scriptableLibName)
    (hcache : QHash.contains d.m_libraries name = false)
    (hminor : env.GRANTLEE_VERSION_MINOR < uintModulus)
    (hmin : env.GRANTLEE_MIN_PLUGIN_VERSION < uintModulus)
    (hpos : 0 < env.GRANTLEE_MIN_PLUGIN_VERSION)
    (hbudget : env.GRANTLEE_VERSION_MINOR + 2 ≤ budget)
    (hnone : ∀ v, env.GRANTLEE_MIN_PLUGIN_VERSION ≤ v → v ≤ env.GRANTLEE_VERSION_MINOR →
      EnginePrivate.resolves env d name v = Outcome.returned none) :
    ∃ r, Engine.loadLibrary env budget d name = some (Outcome.returned r) ∧
      r.library = none ∧
      r.attempts.length =
        env.GRANTLEE_VERSION_MINOR + 1 - env.GRANTLEE_MIN_PLUGIN_VERSION := by
  have hminmod : env.GRANTLEE_MIN_PLUGIN_VERSION % uintModulus =
      env.GRANTLEE_MIN_PLUGIN_VERSION := Nat.mod_eq_of_lt hmin
  have hminormod : env.GRANTLEE_VERSION_MINOR % uintModulus = env.GRANTLEE_VERSION_MINOR :=
    Nat.mod_eq_of_lt hminor
  have hrun : Engine.loadLibrary env budget d name =
      Engine.loadLibraryLoop env name budget env.GRANTLEE_VERSION_MINOR d [] := by
    unfold Engine.loadLibrary
    rw [if_neg hname, hcache, hminormod]
    simp
  obtain ⟨r, hr, hlib, hatt, _⟩ := loadLibraryLoop_miss env d name (by omega)
    (env.GRANTLEE_VERSION_MINOR + 1 - env.GRANTLEE_MIN_PLUGIN_VERSION % uintModulus)
    env.GRANTLEE_VERSION_MINOR d [] budget (sameUpToLoaders_refl d) rfl hminor
    (fun w h1 h2 => hnone w (by omega) h2) (by omega)
  rw [List.nil_append, hminmod] at hatt
  exact ⟨r, hrun.trans hr, hlib, by rw [hatt, length_versionsDownTo]⟩

/-- With minimum plugin version 0, a load of an uncached name that resolves
at no version never returns, whatever the step budget. -/
theorem loadLibrary_min_zero_never_returns (env : Env) (d : EnginePrivate) (name : String)
    (hname : name ≠ scriptableLibName)
    (hcache : QHash.contains d.m_libraries name = false)
    (hzero : env.GRANTLEE_MIN_PLUGIN_VERSION = 0)
    (hnone : ∀ w, w < uintModulus →
      EnginePrivate.resolves env d name w = Outcome.returned none) :
    ∀ budget, Engine.loadLibrary env budget d name = none := by
  intro budget
  unfold Engine.loadLibrary
  rw [if_neg hname, hcache]
  simp only [Bool.false_eq_true, if_false]
  exact loadLibraryLoop_diverges env d name (by rw [hzero]; rfl) hnone budget _ d []
    (sameUpToLoaders_refl d) (Nat.mod_lt _ (by unfold uintModulus; norm_num))

/-- C2 at the failing input: with GRANTLEE_MIN_PLUGIN_VERSION = 0 and
GRANTLEE_VERSION_MINOR = 0 and no plugin installed, `Engine::loadLibrary`
does not return within any number of resolution attempts, where a bounded
search would return null after one attempt. -/
theorem loadLibrary_never_returns_at_min_zero :
    ∀ budget,
      Engine.loadLibrary emptyEnvMinZero budget (engineWithDirs ["/usr/lib/grantlee"])
        "grantlee_i18ntags" = none :=
  loadLibrary_min_zero_never_returns emptyEnvMinZero (engineWithDirs ["/usr/lib/grantlee"])
    "grantlee_i18ntags" (by decide) (by decide) rfl (fun w _ => rfl)

/-- C3 at the failing input: after the default libraries are loaded, two
successive loads of the script library `foo` return two different
containers, the second load appends a second container to the list of
scriptable libraries, and the name is never entered in the cache. -/
theorem loadLibrary_script_reload_allocates :
    ∃ d0 r1 r2,
      Engine.loadDefaultLibraries scriptEnv 2 (engineWithDirs ["/p"]) =
        some (Outcome.returned d0) ∧
      Engine.loadLibrary scriptEnv 2 d0 "foo" = some (Outcome.returned r1) ∧
      Engine.loadLibrary scriptEnv 2 r1.state "foo" = some (Outcome.returned r2) ∧
      r1.library =
        some (TagLibraryInterface.scriptable 0 (TagLibraryInterface.plugin 7) "/p/0.1/foo.qs") ∧
      r2.library =
        some (TagLibraryInterface.scriptable 1 (TagLibraryInterface.plugin 7) "/p/0.1/foo.qs") ∧
      r2.library ≠ r1.library ∧
      r1.state.m_scriptableLibraries.length = 1 ∧
      r2.state.m_scriptableLibraries.length = 2 ∧
      r2.state.m_scriptableLibraries ≠ r1.state.m_scriptableLibraries ∧
      QHash.contains r1.state.m_libraries "foo" = false :=
  ⟨_, _, _, rfl, rfl, rfl, rfl, rfl, by decide, rfl, rfl, by decide, rfl⟩

/-- C8 at a concrete miss: the plugin file `baz.so` exists but does not load,
so the call returns null and leaves one plugin loader behind. -/
theorem loadLibrary_miss_leaves_cache_witness :
    Engine.loadLibrary brokenPluginEnv 3 (engineWithDirs ["/p"]) "baz" =
        some (Outcome.returned brokenPluginMiss) ∧
      brokenPluginMiss.library = none ∧
      brokenPluginMiss.state.m_pluginLoaders ≠ (engineWithDirs ["/p"]).m_pluginLoaders ∧
      (brokenPluginMiss.state.m_libraries = (engineWithDirs ["/p"]).m_libraries ∧
        brokenPluginMiss.state.m_scriptableLibraries =
          (engineWithDirs ["/p"]).m_scriptableLibraries ∧
        ∀ (other : String) (budget2 : Nat),
          (Engine.loadLibrary brokenPluginEnv budget2 brokenPluginMiss.state other).map
              (Outcome.map LoadResult.observed) =
            (Engine.loadLibrary brokenPluginEnv budget2 (engineWithDirs ["/p"]) other).map
              (Outcome.map LoadResult.observed)) :=
  ⟨rfl, rfl, by decide,
    loadLibrary_miss_leaves_cache brokenPluginEnv 3 (engineWithDirs ["/p"]) "baz"
      brokenPluginMiss rfl rfl⟩

/-! ### Template loaders -/

theorem loadByNameLoop_first (name : String) :
    ∀ (ls : List AbstractTemplateLoader) (k : Nat) (acc : List LoaderCall)
      (i : Nat) (loader : AbstractTemplateLoader) (t : TemplateImpl),
      ls[i]? = some loader → loader.canLoadTemplate name = true →
      loader.loadByName name = some t →
      (∀ j l2, j < i → ls[j]? = some l2 →
        ¬ (l2.canLoadTemplate name = true ∧ l2.loadByName name ≠ none)) →
      (Engine.loadByNameLoop name ls k acc).1 = some t ∧
        ∀ c ∈ (Engine.loadByNameLoop name ls k acc).2, c ∈ acc ∨ c.index ≤ k + i := by
  intro ls
  induction ls with
  | nil => intro k acc i loader t h; simp at h
  | cons l rest ih =>
    intro k acc i loader t hget hcan hload hfirst
    cases i with
    | zero =>
      simp only [List.getElem?_cons_zero, Option.some.injEq] at hget
      subst hget
      simp only [Engine.loadByNameLoop, hcan, hload, Bool.not_true, Bool.false_eq_true,
        if_false, true_and]
      intro c hc
      simp only [List.mem_append, List.mem_cons, List.mem_singleton, List.not_mem_nil,
        or_false] at hc
      rcases hc with hc | hc | hc
      · exact Or.inl hc
      · subst hc; exact Or.inr (by simp [LoaderCall.index])
      · subst hc; exact Or.inr (by simp [LoaderCall.index])
    | succ i =>
      simp only [List.getElem?_cons_succ] at hget
      have h0 := hfirst 0 l (Nat.succ_pos i) (by simp)
      have hrest := fun acc2 => ih (k + 1) acc2 i loader t hget hcan hload
        (fun j l2 hj hl2 => hfirst (j + 1) l2 (by omega) (by simpa using hl2))
      simp only [Engine.loadByNameLoop]
      by_cases hc : l.canLoadTemplate name = true
      · have hl : l.loadByName name = none := by
          by_contra hne
          exact h0 ⟨hc, hne⟩
        simp only [hc, hl, Bool.not_true, Bool.false_eq_true, if_false]
        obtain ⟨hv, hcalls⟩ := hrest (acc ++ [LoaderCall.canLoadTemplate k, LoaderCall.loadByName k])
        refine ⟨hv, ?_⟩
        intro c hmem
        rcases hcalls c hmem with h | h
        · simp only [List.mem_append, List.mem_cons, List.mem_singleton, List.not_mem_nil,
            or_false] at h
          rcases h with h | h | h
          · exact Or.inl h
          · subst h; exact Or.inr (by simp [LoaderCall.index])
          · subst h; exact Or.inr (by simp [LoaderCall.index])
        · exact Or.inr (by omega)
      · simp only [Bool.not_eq_true] at hc
        simp only [hc, Bool.not_false, if_true]
        obtain ⟨hv, hcalls⟩ := hrest (acc ++ [LoaderCall.canLoadTemplate k])
        refine ⟨hv, ?_⟩
        intro c hmem
        rcases hcalls c hmem with h | h
        · simp only [List.mem_append, List.mem_singleton] at h
          rcases h with h | h
          · exact Or.inl h
          · subst h; exact Or.inr (by simp [LoaderCall.index])
        · exact Or.inr (by omega)

theorem loadByNameLoop_none (name : String) :
    ∀ (ls : List AbstractTemplateLoader) (k : Nat) (acc : List LoaderCall),
      (∀ l ∈ ls, ¬ (l.canLoadTemplate name = true ∧ l.loadByName name ≠ none)) →
      (Engine.loadByNameLoop name ls k acc).1 = none := by
  intro ls
  induction ls with
  | nil => intro k acc _; rfl
  | cons l rest ih =>
    intro k acc hall
    have h0 := hall l (List.mem_cons_self _ _)
    have hrest : ∀ l2 ∈ rest, ¬ (l2.canLoadTemplate name = true ∧ l2.loadByName name ≠ none) :=
      fun l2 h => hall l2 (List.mem_cons_of_mem _ h)
    simp only [Engine.loadByNameLoop]
    by_cases hc : l.canLoadTemplate name = true
    · have hl : l.loadByName name = none := by
        by_contra hne
        exact h0 ⟨hc, hne⟩
      simp only [hc, hl, Bool.not_true, Bool.false_eq_true, if_false]
      exact ih _ _ hrest
    · simp only [Bool.not_eq_true] at hc
      simp only [hc, Bool.not_false, if_true]
      exact ih _ _ hrest

/-- In `Engine::loadByName` the load method is called only on loaders that
answered that they can load the name. -/
theorem loadByNameLoop_load_only_if_can (name : String) :
    ∀ (ls : List AbstractTemplateLoader) (k : Nat) (acc : List LoaderCall) (n : Nat),
      LoaderCall.loadByName n ∈ (Engine.loadByNameLoop name ls k acc).2 →
      LoaderCall.loadByName n ∈ acc ∨
        ∃ j loader, n = k + j ∧ ls[j]? = some loader ∧ loader.canLoadTemplate name = true := by
  intro ls
  induction ls with
  | nil => intro k acc n h; exact Or.inl h
  | cons l rest ih =>
    intro k acc n h
    simp only [Engine.loadByNameLoop] at h
    by_cases hc : l.canLoadTemplate name = true
    · simp only [hc, Bool.not_true, Bool.false_eq_true, if_false] at h
      have key : LoaderCall.loadByName n ∈
          acc ++ [LoaderCall.canLoadTemplate k, LoaderCall.loadByName k] →
          LoaderCall.loadByName n ∈ acc ∨
            ∃ j loader, n = k + j ∧ (l :: rest)[j]? = some loader ∧
              loader.canLoadTemplate name = true := by
        intro hm
        simp only [List.mem_append, List.mem_cons, List.mem_singleton, List.not_mem_nil,
          or_false, LoaderCall.loadByName.injEq] at hm
        rcases hm with hm | hm | hm
        · exact Or.inl hm
        · exact absurd hm (by simp)
        · exact Or.inr ⟨0, l, by omega, by simp, hc⟩
      cases hl : l.loadByName name with
      | some t =>
        rw [hl] at h
        exact key h
      | none =>
        rw [hl] at h
        rcases ih _ _ n h with h1 | ⟨j, loader, hj, hget, hcan⟩
        · exact key h1
        · exact Or.inr ⟨j + 1, loader, by omega, by simpa using hget, hcan⟩
    · simp only [Bool.not_eq_true] at hc
      simp only [hc, Bool.not_false, if_true] at h
      rcases ih _ _ n h with h1 | ⟨j, loader, hj, hget, hcan⟩
      · simp only [List.mem_append, List.mem_singleton] at h1
        rcases h1 with h1 | h1
        · exact Or.inl h1
        · exact absurd h1 (by simp)
      · exact Or.inr ⟨j + 1, loader, by omega, by simpa using hget, hcan⟩

/-- C4: `Engine::loadByName` returns the template of the first loader, in
registration order, that can load the name and whose `loadByName` yields a
valid template, and makes no call on a loader registered after it (loaders
before it that cannot load, or that can but yield a null template, do not
stop the search); when no loader qualifies, and in particular when none is
registered, it returns the empty `Template`.  The engine raises nothing: the
result is a plain `Template`. -/
theorem loadByName_first_successful_loader (d : EnginePrivate) (name : String) :
    (∀ (i : Nat) (loader : AbstractTemplateLoader) (t : TemplateImpl),
        d.m_loaders[i]? = some loader → loader.canLoadTemplate name = true →
        loader.loadByName name = some t →
        (∀ j l2, j < i → d.m_loaders[j]? = some l2 →
          ¬ (l2.canLoadTemplate name = true ∧ l2.loadByName name ≠ none)) →
        (Engine.loadByName d name).value = some t ∧
          ∀ c ∈ (Engine.loadByName d name).calls, c.index ≤ i) ∧
      ((∀ l ∈ d.m_loaders, ¬ (l.canLoadTemplate name = true ∧ l.loadByName name ≠ none)) →
        (Engine.loadByName d name).value = none) ∧
      (d.m_loaders = [] → (Engine.loadByName d name).value = none) := by
  refine ⟨?_, ?_, ?_⟩
  · intro i loader t hget hcan hload hfirst
    obtain ⟨hv, hcalls⟩ := loadByNameLoop_first name d.m_loaders 0 [] i loader t hget hcan hload
      hfirst
    refine ⟨hv, ?_⟩
    intro c hc
    rcases hcalls c hc with h | h
    · simp at h
    · omega
  · intro hall
    exact loadByNameLoop_none name d.m_loaders 0 [] hall
  · intro hnil
    exact loadByNameLoop_none name d.m_loaders 0 [] (by rw [hnil]; simp)

theorem twoLoaderEngine_loaders :
    twoLoaderEngine.m_loaders = [memoryLoader ["a"] "", memoryLoader ["b"] "/media/"] := rfl

/-- C4 at a concrete engine: the second of two loaders is the first that can
load `b`; no loader can load `c`; a fresh engine has no loader. -/
theorem loadByName_first_successful_loader_witness :
    (Engine.loadByName twoLoaderEngine "b").value =
        some { objectName := "b", content := "content" } ∧
      (∀ c ∈ (Engine.loadByName twoLoaderEngine "b").calls, c.index ≤ 1) ∧
      (Engine.loadByName twoLoaderEngine "c").value = none ∧
      (Engine.loadByName Engine.new "b").value = none :=
  ⟨((loadByName_first_successful_loader twoLoaderEngine "b").1 1 (memoryLoader ["b"] "/media/")
      { objectName := "b", content := "content" } rfl rfl rfl (by
        intro j l2 hj hget
        obtain rfl : j = 0 := by omega
        have h0 : twoLoaderEngine.m_loaders[0]? = some (memoryLoader ["a"] "") := rfl
        rw [h0] at hget
        injection hget with hget
        subst hget
        decide)).1,
    ((loadByName_first_successful_loader twoLoaderEngine "b").1 1 (memoryLoader ["b"] "/media/")
      { objectName := "b", content := "content" } rfl rfl rfl (by
        intro j l2 hj hget
        obtain rfl : j = 0 := by omega
        have h0 : twoLoaderEngine.m_loaders[0]? = some (memoryLoader ["a"] "") := rfl
        rw [h0] at hget
        injection hget with hget
        subst hget
        decide)).2,
    (loadByName_first_successful_loader twoLoaderEngine "c").2.1 (by
      intro l hl
      rw [twoLoaderEngine_loaders] at hl
      simp only [List.mem_cons, List.mem_singleton, List.not_mem_nil, or_false] at hl
      rcases hl with rfl | rfl <;> decide),
    (loadByName_first_successful_loader Engine.new "b").2.2 rfl⟩

theorem loadMutableByNameLoop_first (name : String) :
    ∀ (ls : List AbstractTemplateLoader) (k : Nat) (acc : List LoaderCall)
      (i : Nat) (loader : AbstractTemplateLoader) (t : MutableTemplateImpl),
      ls[i]? = some loader → loader.loadMutableByName name = some t →
      (∀ j l2, j < i → ls[j]? = some l2 → l2.loadMutableByName name = none) →
      (Engine.loadMutableByNameLoop name ls k acc).1 = Except.ok (some t) ∧
        ∀ c ∈ (Engine.loadMutableByNameLoop name ls k acc).2, c ∈ acc ∨ c.index ≤ k + i := by
  intro ls
  induction ls with
  | nil => intro k acc i loader t h; simp at h
  | cons l rest ih =>
    intro k acc i loader t hget hload hfirst
    cases i with
    | zero =>
      simp only [List.getElem?_cons_zero, Option.some.injEq] at hget
      subst hget
      simp only [Engine.loadMutableByNameLoop, hload, true_and]
      intro c hc
      simp only [List.mem_append, List.mem_singleton] at hc
      rcases hc with hc | hc
      · exact Or.inl hc
      · subst hc; exact Or.inr (by simp [LoaderCall.index])
    | succ i =>
      simp only [List.getElem?_cons_succ] at hget
      have h0 : l.loadMutableByName name = none := hfirst 0 l (Nat.succ_pos i) (by simp)
      obtain ⟨hv, hcalls⟩ := ih (k + 1) (acc ++ [LoaderCall.loadMutableByName k]) i loader t
        hget hload (fun j l2 hj hl2 => hfirst (j + 1) l2 (by omega) (by simpa using hl2))
      simp only [Engine.loadMutableByNameLoop, h0]
      refine ⟨hv, ?_⟩
      intro c hmem
      rcases hcalls c hmem with h | h
      · simp only [List.mem_append, List.mem_singleton] at h
        rcases h with h | h
        · exact Or.inl h
        · subst h; exact Or.inr (by simp [LoaderCall.index])
      · exact Or.inr (by omega)

theorem loadMutableByNameLoop_error_iff (name : String) :
    ∀ (ls : List AbstractTemplateLoader) (k : Nat) (acc : List LoaderCall),
      ((∃ e, (Engine.loadMutableByNameLoop name ls k acc).1 = Except.error e) ↔
        ∀ l ∈ ls, l.loadMutableByName name = none) ∧
      (∀ e, (Engine.loadMutableByNameLoop name ls k acc).1 = Except.error e →
        e = { errorCode := Error.TagSyntaxError, what := "Most recent state is invalid." }) := by
  intro ls
  induction ls with
  | nil =>
    intro k acc
    simp only [Engine.loadMutableByNameLoop, List.not_mem_nil, false_implies, implies_true,
      iff_true, Except.error.injEq]
    exact ⟨⟨_, rfl⟩, fun e h => h.symm⟩
  | cons l rest ih =>
    intro k acc
    simp only [Engine.loadMutableByNameLoop]
    cases hl : l.loadMutableByName name with
    | some t =>
      simp only [List.mem_cons, forall_eq_or_imp, hl]
      constructor
      · constructor
        · rintro ⟨e, he⟩
          exact absurd he (by simp)
        · rintro ⟨h, _⟩
          exact absurd h (by simp)
      · intro e he
        exact absurd he (by simp)
    | none =>
      simp only [List.mem_cons, forall_eq_or_imp, hl, true_and]
      exact ih _ _

/-- C5: `Engine::loadMutableByName` raises exactly when no registered loader
yields a valid mutable template for the name; what it raises is of kind
`TagSyntaxError`; it raises in particular when no loader is registered; and
otherwise it returns the valid mutable template of the first loader, in
registration order, that yields one, without a call on any later loader. -/
theorem loadMutableByName_raises_iff_no_loader_succeeds (d : EnginePrivate) (name : String) :
    ((∃ e, (Engine.loadMutableByName d name).value = Except.error e) ↔
        ∀ l ∈ d.m_loaders, l.loadMutableByName name = none) ∧
      (∀ e, (Engine.loadMutableByName d name).value = Except.error e →
        e.errorCode = Error.TagSyntaxError) ∧
      (d.m_loaders = [] → ∃ e, (Engine.loadMutableByName d name).value = Except.error e) ∧
      (∀ (i : Nat) (loader : AbstractTemplateLoader) (t : MutableTemplateImpl),
        d.m_loaders[i]? = some loader → loader.loadMutableByName name = some t →
        (∀ j l2, j < i → d.m_loaders[j]? = some l2 → l2.loadMutableByName name = none) →
        (Engine.loadMutableByName d name).value = Except.ok (some t) ∧
          ∀ c ∈ (Engine.loadMutableByName d name).calls, c.index ≤ i) := by
  obtain ⟨hiff, herr⟩ := loadMutableByNameLoop_error_iff name d.m_loaders 0 []
  refine ⟨hiff, ?_, ?_, ?_⟩
  · intro e he
    rw [herr e he]
  · intro hnil
    exact hiff.mpr (by rw [hnil]; simp)
  · intro i loader t hget hload hfirst
    obtain ⟨hv, hcalls⟩ := loadMutableByNameLoop_first name d.m_loaders 0 [] i loader t hget
      hload hfirst
    refine ⟨hv, ?_⟩
    intro c hc
    rcases hcalls c hc with h | h
    · simp at h
    · omega

/-- C5 at a concrete engine: the second of two loaders is the first to yield
a mutable template for `b`; none yields one for `c`; a fresh engine has no
loader. -/
theorem loadMutableByName_raises_iff_no_loader_succeeds_witness :
    (Engine.loadMutableByName twoLoaderEngine "b").value =
        Except.ok (some { objectName := "b", content := "content" }) ∧
      (∀ c ∈ (Engine.loadMutableByName twoLoaderEngine "b").calls, c.index ≤ 1) ∧
      (∃ e, (Engine.loadMutableByName twoLoaderEngine "c").value = Except.error e) ∧
      (∃ e, (Engine.loadMutableByName Engine.new "b").value = Except.error e) :=
  ⟨((loadMutableByName_raises_iff_no_loader_succeeds twoLoaderEngine "b").2.2.2 1
      (memoryLoader ["b"] "/media/") { objectName := "b", content := "content" } rfl rfl (by
        intro j l2 hj hget
        obtain rfl : j = 0 := by omega
        have h0 : twoLoaderEngine.m_loaders[0]? = some (memoryLoader ["a"] "") := rfl
        rw [h0] at hget
        injection hget with hget
        subst hget
        rfl)).1,
    ((loadMutableByName_raises_iff_no_loader_succeeds twoLoaderEngine "b").2.2.2 1
      (memoryLoader ["b"] "/media/") { objectName := "b", content := "content" } rfl rfl (by
        intro j l2 hj hget
        obtain rfl : j = 0 := by omega
        have h0 : twoLoaderEngine.m_loaders[0]? = some (memoryLoader ["a"] "") := rfl
        rw [h0] at hget
        injection hget with hget
        subst hget
        rfl)).2,
    (loadMutableByName_raises_iff_no_loader_succeeds twoLoaderEngine "c").1.mpr (by
      intro l hl
      rw [twoLoaderEngine_loaders] at hl
      simp only [List.mem_cons, List.mem_singleton, List.not_mem_nil, or_false] at hl
      rcases hl with rfl | rfl <;> rfl),
    (loadMutableByName_raises_iff_no_loader_succeeds Engine.new "b").2.2.1 rfl⟩

theorem mediaUriLoop_first (fileName : String) :
    ∀ (ls : List AbstractTemplateLoader) (k : Nat) (uri : String) (acc : List LoaderCall)
      (i : Nat) (loader : AbstractTemplateLoader),
      ls[i]? = some loader → loader.getMediaUri fileName ≠ "" →
      (∀ j l2, j < i → ls[j]? = some l2 → l2.getMediaUri fileName = "") →
      (Engine.mediaUriLoop fileName ls k uri acc).1 = loader.getMediaUri fileName ∧
        ∀ c ∈ (Engine.mediaUriLoop fileName ls k uri acc).2, c ∈ acc ∨ c.index ≤ k + i := by
  intro ls
  induction ls with
  | nil => intro k uri acc i loader h; simp at h
  | cons l rest ih =>
    intro k uri acc i loader hget hne hfirst
    cases i with
    | zero =>
      simp only [List.getElem?_cons_zero, Option.some.injEq] at hget
      subst hget
      have he : (l.getMediaUri fileName).isEmpty = false := by
        rw [Bool.eq_false_iff]
        intro h
        exact hne ((String.isEmpty_iff _).mp h)
      simp only [Engine.mediaUriLoop, he, Bool.not_false, if_true, true_and]
      intro c hc
      simp only [List.mem_append, List.mem_singleton] at hc
      rcases hc with hc | hc
      · exact Or.inl hc
      · subst hc; exact Or.inr (by simp [LoaderCall.index])
    | succ i =>
      simp only [List.getElem?_cons_succ] at hget
      have h0 : l.getMediaUri fileName = "" := hfirst 0 l (Nat.succ_pos i) (by simp)
      have he : (l.getMediaUri fileName).isEmpty = true := (String.isEmpty_iff _).mpr h0
      obtain ⟨hv, hcalls⟩ := ih (k + 1) (l.getMediaUri fileName)
        (acc ++ [LoaderCall.getMediaUri k]) i loader
        hget hne (fun j l2 hj hl2 => hfirst (j + 1) l2 (by omega) (by simpa using hl2))
      simp only [Engine.mediaUriLoop, he, Bool.not_true, Bool.false_eq_true, if_false]
      refine ⟨hv, ?_⟩
      intro c hmem
      rcases hcalls c hmem with h | h
      · simp only [List.mem_append, List.mem_singleton] at h
        rcases h with h | h
        · exact Or.inl h
        · subst h; exact Or.inr (by simp [LoaderCall.index])
      · exact Or.inr (by omega)

theorem mediaUriLoop_all_empty (fileName : String) :
    ∀ (ls : List AbstractTemplateLoader) (k : Nat) (uri : String) (acc : List LoaderCall),
      uri = "" → (∀ l ∈ ls, l.getMediaUri fileName = "") →
      (Engine.mediaUriLoop fileName ls k uri acc).1 = "" := by
  intro ls
  induction ls with
  | nil => intro k uri acc hu _; exact hu
  | cons l rest ih =>
    intro k uri acc _ hall
    have h0 : l.getMediaUri fileName = "" := hall l (List.mem_cons_self _ _)
    have he : (l.getMediaUri fileName).isEmpty = true := (String.isEmpty_iff _).mpr h0
    simp only [Engine.mediaUriLoop, he, Bool.not_true, Bool.false_eq_true, if_false]
    exact ih _ _ _ h0 (fun l2 h => hall l2 (List.mem_cons_of_mem _ h))

/-- C6: `Engine::mediaUri` returns the first non-empty string that
`getMediaUri( fileName )` gives over the loaders in registration order and
makes no call on a later loader; it returns the empty string when every
loader gives the empty string, in particular when no loader is registered;
and it leaves the engine state as it was. -/
theorem mediaUri_first_nonempty (d : EnginePrivate) (fileName : String) :
    (∀ (i : Nat) (loader : AbstractTemplateLoader),
        d.m_loaders[i]? = some loader → loader.getMediaUri fileName ≠ "" →
        (∀ j l2, j < i → d.m_loaders[j]? = some l2 → l2.getMediaUri fileName = "") →
        (Engine.mediaUri d fileName).value = loader.getMediaUri fileName ∧
          ∀ c ∈ (Engine.mediaUri d fileName).calls, c.index ≤ i) ∧
      ((∀ l ∈ d.m_loaders, l.getMediaUri fileName = "") →
        (Engine.mediaUri d fileName).value = "") ∧
      (d.m_loaders = [] → (Engine.mediaUri d fileName).value = "") ∧
      (Engine.mediaUri d fileName).state = d := by
  refine ⟨?_, ?_, ?_, rfl⟩
  · intro i loader hget hne hfirst
    obtain ⟨hv, hcalls⟩ := mediaUriLoop_first fileName d.m_loaders 0 "" [] i loader hget hne
      hfirst
    refine ⟨hv, ?_⟩
    intro c hc
    rcases hcalls c hc with h | h
    · simp at h
    · omega
  · intro hall
    exact mediaUriLoop_all_empty fileName d.m_loaders 0 "" [] rfl hall
  · intro hnil
    exact mediaUriLoop_all_empty fileName d.m_loaders 0 "" [] rfl (by rw [hnil]; simp)

/-- C6 at a concrete engine: the second of two loaders is the first to give
a non-empty media location; a fresh engine has no loader. -/
theorem mediaUri_first_nonempty_witness :
    (Engine.mediaUri twoLoaderEngine "logo.png").value = "/media/" ∧
      (∀ c ∈ (Engine.mediaUri twoLoaderEngine "logo.png").calls, c.index ≤ 1) ∧
      (Engine.mediaUri Engine.new "logo.png").value = "" ∧
      (Engine.mediaUri twoLoaderEngine "logo.png").state = twoLoaderEngine :=
  ⟨((mediaUri_first_nonempty twoLoaderEngine "logo.png").1 1 (memoryLoader ["b"] "/media/")
      rfl (by decide) (by
        intro j l2 hj hget
        obtain rfl : j = 0 := by omega
        have h0 : twoLoaderEngine.m_loaders[0]? = some (memoryLoader ["a"] "") := rfl
        rw [h0] at hget
        injection hget with hget
        subst hget
        rfl)).1,
    ((mediaUri_first_nonempty twoLoaderEngine "logo.png").1 1 (memoryLoader ["b"] "/media/")
      rfl (by decide) (by
        intro j l2 hj hget
        obtain rfl : j = 0 := by omega
        have h0 : twoLoaderEngine.m_loaders[0]? = some (memoryLoader ["a"] "") := rfl
        rw [h0] at hget
        injection hget with hget
        subst hget
        rfl)).2,
    (mediaUri_first_nonempty Engine.new "logo.png").2.2.1 rfl,
    (mediaUri_first_nonempty twoLoaderEngine "logo.png").2.2.2⟩

/-- C7 at the failing inputs.  First input, two consistent loaders of which
only the second can load `b`: `Engine::loadByName` asks the first loader
whether it can load and does not call its load method, while
`Engine::loadMutableByName` calls the load method of the first loader
although it cannot load the name.  Second input, a loader that cannot load
`b` but whose load methods both succeed, followed by one that can: each
loader's `loadByName` and `loadMutableByName` succeed for the same names, yet
`Engine::loadByName` takes its template from position 1 and
`Engine::loadMutableByName` from position 0, the loader that cannot load;
the specified selection is position 1. -/
theorem loadMutableByName_ignores_canLoadTemplate :
    (Engine.loadByName (engineWithLoaders [memoryLoader ["a"] "", memoryLoader ["b"] ""])
        "b").calls =
      [LoaderCall.canLoadTemplate 0, LoaderCall.canLoadTemplate 1, LoaderCall.loadByName 1] ∧
    (memoryLoader ["a"] "").canLoadTemplate "b" = false ∧
    (Engine.loadMutableByName (engineWithLoaders [memoryLoader ["a"] "", memoryLoader ["b"] ""])
        "b").calls =
      [LoaderCall.loadMutableByName 0, LoaderCall.loadMutableByName 1] ∧
    shyLoader.canLoadTemplate "b" = false ∧
    (∀ name, (shyLoader.loadByName name).isSome = (shyLoader.loadMutableByName name).isSome) ∧
    (∀ name, ((memoryLoader ["b"] "").loadByName name).isSome =
      ((memoryLoader ["b"] "").loadMutableByName name).isSome) ∧
    (Engine.loadByName (engineWithLoaders [shyLoader, memoryLoader ["b"] ""]) "b").value =
      some { objectName := "b", content := "content" } ∧
    selectedPosition
        (Engine.loadByName (engineWithLoaders [shyLoader, memoryLoader ["b"] ""]) "b").calls =
      some 1 ∧
    (Engine.loadMutableByName (engineWithLoaders [shyLoader, memoryLoader ["b"] ""]) "b").value =
      Except.ok (some { objectName := "b", content := "shy" }) ∧
    selectedPosition
        (Engine.loadMutableByName (engineWithLoaders [shyLoader, memoryLoader ["b"] ""])
          "b").calls =
      some 0 ∧
    specMutableLoaderPosition [shyLoader, memoryLoader ["b"] ""] "b" = some 1 := by
  refine ⟨rfl, rfl, rfl, rfl, ?_, ?_, rfl, rfl, rfl, rfl, rfl⟩
  · intro name; rfl
  · intro name
    simp only [memoryLoader]
    split <;> rfl

/-! ### Type accessors -/

theorem metaEnum_keyCount_nonneg (e : QMetaEnum) : 0 ≤ e.keyCount := by
  unfold QMetaEnum.keyCount
  exact Int.natCast_nonneg _

theorem metaEnum_value_of_negative (e : QMetaEnum) (i : Int) (h : i < 0) : e.value i = -1 := by
  unfold QMetaEnum.value
  rw [if_neg (by omega)]

/-- For a property that parses as an integer, the accessor checks the index
against the key count only. -/
theorem metaEnum_lookUp_index (U : QtText) (object : MetaEnumVariable) (property : String)
    (i : Int)
    (hprop : property ∉ ["name", "value", "key", "scope", "keyCount"])
    (hint : U.toInt property = some i) :
    (∀ (n : Nat) (entry : String × Int), i = n → object.enumerator.keys[n]? = some entry →
      TypeAccessor.MetaEnumVariable.lookUp U object property =
        QVariant.metaEnumVariable { enumerator := object.enumerator, value := entry.2 }) ∧
    (i ≥ object.enumerator.keyCount →
      TypeAccessor.MetaEnumVariable.lookUp U object property = QVariant.invalid) ∧
    (i < 0 →
      TypeAccessor.MetaEnumVariable.lookUp U object property =
        QVariant.metaEnumVariable { enumerator := object.enumerator, value := -1 }) := by
  simp only [List.mem_cons, List.mem_singleton, List.not_mem_nil, or_false, not_or] at hprop
  obtain ⟨h1, h2, h3, h4, h5⟩ := hprop
  have hk := metaEnum_keyCount_nonneg object.enumerator
  unfold TypeAccessor.MetaEnumVariable.lookUp
  rw [if_neg h1, if_neg h2, if_neg h3, if_neg h4, if_neg h5, hint]
  refine ⟨?_, ?_, ?_⟩
  · intro n entry hn hget
    have hlt : n < object.enumerator.keys.length := by
      by_contra hc
      rw [List.getElem?_eq_none (by omega)] at hget
      exact Option.noConfusion hget
    have hlt2 : i < object.enumerator.keyCount := by
      unfold QMetaEnum.keyCount
      omega
    simp only
    rw [if_neg (by omega)]
    have hv : object.enumerator.value i = entry.2 := by
      unfold QMetaEnum.value
      rw [if_pos ⟨by omega, hlt2⟩]
      have : i.toNat = n := by omega
      rw [this, hget]
    rw [hv]
  · intro hge
    simp only
    rw [if_pos hge]
  · intro hneg
    simp only
    rw [if_neg (by omega), metaEnum_value_of_negative _ _ hneg]

/-- C9 at the failing input: the property `-1` is none of the five named
properties and parses as the integer -1, an index out of range; the accessor
does not return the not-found value but a `MetaEnumVariable` holding -1, the
value `QMetaEnum::value` gives for a missing key. -/
theorem metaEnum_lookUp_negative_index_found :
    "-1" ∉ ["name", "value", "key", "scope", "keyCount"] ∧
      asciiText.toInt "-1" = some (-1) ∧
      ¬ (0 ≤ (-1 : Int) ∧ (-1 : Int) < colourEnum.keyCount) ∧
      TypeAccessor.MetaEnumVariable.lookUp asciiText greenVariable "-1" =
        QVariant.metaEnumVariable { enumerator := colourEnum, value := -1 } ∧
      TypeAccessor.MetaEnumVariable.lookUp asciiText greenVariable "-1" ≠ QVariant.invalid :=
  ⟨by decide, by decide, by decide, rfl, by
    intro h
    exact QVariant.noConfusion h⟩

/-- C10: for a `SafeString`, a property that is not exactly one of the
fourteen property names yields the not-found value; for a
`MetaEnumVariable`, a property that is none of the five property names and
does not parse as an integer yields the not-found value. -/
theorem lookUp_unknown_property_not_found :
    (∀ (U : QtText) (object : SafeString) (property : String),
      property ∉ ["capitalize", "isalnum", "isalpha", "isdigit", "islower", "isspace",
        "istitle", "isupper", "lower", "splitlines", "strip", "swapcase", "title", "upper"] →
      TypeAccessor.SafeString.lookUp U object property = some QVariant.invalid) ∧
    (∀ (U : QtText) (object : MetaEnumVariable) (property : String),
      property ∉ ["name", "value", "key", "scope", "keyCount"] →
      U.toInt property = none →
      TypeAccessor.MetaEnumVariable.lookUp U object property = QVariant.invalid) := by
  constructor
  · intro U object property hprop
    simp only [List.mem_cons, List.mem_singleton, List.not_mem_nil, or_false, not_or] at hprop
    obtain ⟨h1, h2, h3, h4, h5, h6, h7, h8, h9, h10, h11, h12, h13, h14⟩ := hprop
    unfold TypeAccessor.SafeString.lookUp
    simp only [if_neg h1, if_neg h2, if_neg h3, if_neg h4, if_neg h5, if_neg h6, if_neg h7,
      if_neg h8, if_neg h9, if_neg h10, if_neg h11, if_neg h12, if_neg h13, if_neg h14]
  · intro U object property hprop hint
    simp only [List.mem_cons, List.mem_singleton, List.not_mem_nil, or_false, not_or] at hprop
    obtain ⟨h1, h2, h3, h4, h5⟩ := hprop
    unfold TypeAccessor.MetaEnumVariable.lookUp
    rw [if_neg h1, if_neg h2, if_neg h3, if_neg h4, if_neg h5, hint]

/-- C10 at concrete inputs: the lookup is case-sensitive, so `Upper` is not a
property of a `SafeString`; `colour` is no property of a `MetaEnumVariable`
and does not parse as an integer. -/
theorem lookUp_unknown_property_not_found_witness :
    TypeAccessor.SafeString.lookUp asciiText { get := "abc", isSafe := false } "Upper" =
        some QVariant.invalid ∧
      TypeAccessor.MetaEnumVariable.lookUp asciiText greenVariable "colour" = QVariant.invalid :=
  ⟨lookUp_unknown_property_not_found.1 asciiText { get := "abc", isSafe := false } "Upper"
      (by decide),
    lookUp_unknown_property_not_found.2 asciiText greenVariable "colour" (by decide) rfl⟩

/-- A position `QRegExp::indexIn` reports lies at or after the offset, inside
the string, and the expression matches there. -/
theorem indexIn_some (re : List Char → Nat → Bool) (s : List Char) (offset p : Nat)
    (h : QRegExp.indexIn re s offset = some p) : offset ≤ p ∧ p < s.length ∧ re s p = true := by
  unfold QRegExp.indexIn at h
  have hmem := List.mem_of_find?_eq_some h
  have hp := List.find?_some h
  rw [List.mem_range'_1] at hmem
  exact ⟨hmem.1, by omega, hp⟩

/-- The `title` loop returns within one step per remaining character and one
more: every iteration moves `pos` past the match it found. -/
theorem titleLoop_returns (U : QtText) (s : List Char) :
    ∀ (budget pos : Nat) (output : List Char), pos ≤ s.length → s.length + 1 ≤ budget + pos →
      ∃ out, titleLoop U s budget pos output = some out := by
  intro budget
  induction budget with
  | zero =>
    intro pos output h1 h2
    omega
  | succ b ih =>
    intro pos output _ h
    unfold titleLoop
    cases hi : QRegExp.indexIn (getTitleRegexp U) s pos with
    | none => exact ⟨output, rfl⟩
    | some p =>
      obtain ⟨h1, h2, _⟩ := indexIn_some _ _ _ _ hi
      simp only
      exact ih _ _ (by omega) (by omega)

/-- The budget the accessor gives the `title` loop is enough. -/
theorem title_budget_suffices (U : QtText) (s : List Char) :
    ∃ out, titleLoop U s (s.length + 1) 0 [] = some out :=
  titleLoop_returns U s (s.length + 1) 0 [] (Nat.zero_le _) (by omega)

/-! ### The default-library list -/

theorem removeAll_append_self (l : List String) (x : String) :
    QStringList.removeAll (l ++ [x]) x = QStringList.removeAll l x := by
  simp [QStringList.removeAll, List.filter_append]

/-- C11: a newly constructed engine has the default libraries
grantlee_defaulttags, grantlee_loadertags, grantlee_defaultfilters,
grantlee_scriptabletags, in that order; `addDefaultLibrary( x )` appends `x`
at the end; `removeDefaultLibrary( x )` deletes every occurrence of `x` and
keeps the other names in their order (the result is the list filtered by
being different from `x`: it does not hold `x`, it is a sublist of the old
list, and every other name occurs as often as before); adding `x` and then
removing it gives the old list without `x`; and neither operation changes
the template loaders, the plugin directories or the library cache. -/
theorem defaultLibraries_list_semantics :
    Engine.defaultLibraries Engine.new =
        ["grantlee_defaulttags", "grantlee_loadertags", "grantlee_defaultfilters",
          "grantlee_scriptabletags"] ∧
      ∀ (d : EnginePrivate) (x : String),
        Engine.defaultLibraries (Engine.addDefaultLibrary d x) =
            Engine.defaultLibraries d ++ [x] ∧
          Engine.defaultLibraries (Engine.removeDefaultLibrary d x) =
            (Engine.defaultLibraries d).filter (fun y => decide (y ≠ x)) ∧
          x ∉ Engine.defaultLibraries (Engine.removeDefaultLibrary d x) ∧
          (Engine.defaultLibraries (Engine.removeDefaultLibrary d x)).Sublist
            (Engine.defaultLibraries d) ∧
          (∀ y, y ≠ x →
            (Engine.defaultLibraries (Engine.removeDefaultLibrary d x)).count y =
              (Engine.defaultLibraries d).count y) ∧
          Engine.defaultLibraries
              (Engine.removeDefaultLibrary (Engine.addDefaultLibrary d x) x) =
            (Engine.defaultLibraries d).filter (fun y => decide (y ≠ x)) ∧
          (Engine.addDefaultLibrary d x).m_loaders = d.m_loaders ∧
          (Engine.addDefaultLibrary d x).m_pluginDirs = d.m_pluginDirs ∧
          (Engine.addDefaultLibrary d x).m_libraries = d.m_libraries ∧
          (Engine.removeDefaultLibrary d x).m_loaders = d.m_loaders ∧
          (Engine.removeDefaultLibrary d x).m_pluginDirs = d.m_pluginDirs ∧
          (Engine.removeDefaultLibrary d x).m_libraries = d.m_libraries := by
  refine ⟨rfl, ?_⟩
  intro d x
  have hfilter : ∀ l : List String,
      QStringList.removeAll l x = l.filter (fun y => decide (y ≠ x)) := by
    intro l
    unfold QStringList.removeAll
    congr 1
    funext y
    by_cases h : y = x <;> simp [h]
  refine ⟨rfl, hfilter _, ?_, ?_, ?_, ?_, rfl, rfl, rfl, rfl, rfl, rfl⟩
  · show x ∉ QStringList.removeAll d.m_defaultLibraries x
    rw [hfilter]
    simp [List.mem_filter]
  · show (QStringList.removeAll d.m_defaultLibraries x).Sublist d.m_defaultLibraries
    exact List.filter_sublist _
  · intro y hy
    show (QStringList.removeAll d.m_defaultLibraries x).count y = d.m_defaultLibraries.count y
    rw [hfilter, List.count_filter]
    simpa using hy
  · show QStringList.removeAll (d.m_defaultLibraries ++ [x]) x = _
    rw [removeAll_append_self, hfilter]
    rfl

/-! ### Script libraries and C++ plugins -/

theorem loadScriptableLibraryLoop_first (env : Env) (d : EnginePrivate)
    (host : TagLibraryInterface) (name : String) (v : Nat) :
    ∀ (dirs : List String) (i : Nat) (dir : String),
      dirs[i]? = some dir → env.fileExists (scriptFileName env dir name v) = true →
      (∀ j dir2, j < i → dirs[j]? = some dir2 →
        env.fileExists (scriptFileName env dir2 name v) = false) →
      EnginePrivate.loadScriptableLibraryLoop env d host name v dirs =
        (some (TagLibraryInterface.scriptable d.m_scriptableLibraries.length host
            (scriptFileName env dir name v)),
          { d with
            m_scriptableLibraries := d.m_scriptableLibraries ++
              [TagLibraryInterface.scriptable d.m_scriptableLibraries.length host
                (scriptFileName env dir name v)] }) := by
  intro dirs
  induction dirs with
  | nil => intro i dir h; simp at h
  | cons d0 rest ih =>
    intro i dir hget hex hfirst
    cases i with
    | zero =>
      simp only [List.getElem?_cons_zero, Option.some.injEq] at hget
      subst hget
      unfold scriptFileName at hex ⊢
      simp only [EnginePrivate.loadScriptableLibraryLoop, hex, Bool.not_true,
        Bool.false_eq_true, if_false]
    | succ i =>
      simp only [List.getElem?_cons_succ] at hget
      have h0 := hfirst 0 d0 (Nat.succ_pos i) (by simp)
      unfold scriptFileName at h0
      simp only [EnginePrivate.loadScriptableLibraryLoop, h0, Bool.not_false, if_true]
      exact ih i dir hget hex
        (fun j dir2 hj hd => hfirst (j + 1) dir2 (by omega) (by simpa using hd))

theorem loadScriptableLibraryLoop_no_file (env : Env) (d : EnginePrivate)
    (host : TagLibraryInterface) (name : String) (v : Nat) :
    ∀ (dirs : List String),
      (∀ dir ∈ dirs, env.fileExists (scriptFileName env dir name v) = false) →
      EnginePrivate.loadScriptableLibraryLoop env d host name v dirs = (none, d) := by
  intro dirs
  induction dirs with
  | nil => intro _; rfl
  | cons d0 rest ih =>
    intro hall
    have h0 := hall d0 (List.mem_cons_self _ _)
    unfold scriptFileName at h0
    simp only [EnginePrivate.loadScriptableLibraryLoop, h0, Bool.not_false, if_true]
    exact ih (fun dir h => hall dir (List.mem_cons_of_mem _ h))

/-- The C++ path returns null or a plugin, never a script container. -/
theorem loadCppLibrary_not_scriptable (env : Env) (d : EnginePrivate) (name : String)
    (v : Nat) (serial : Nat) (host : TagLibraryInterface) (file : String) :
    (EnginePrivate.loadCppLibrary env d name v).map Prod.fst ≠
      Outcome.returned (some (TagLibraryInterface.scriptable serial host file)) := by
  unfold EnginePrivate.loadCppLibrary
  rcases EnginePrivate.loadCppLibraryLoop env name v d.m_pluginDirs d.m_pluginLoaders with
    ⟨r1, s1⟩
  cases r1 with
  | none => simp [Outcome.map]
  | some p =>
    simp only
    split <;> simp [Outcome.map]

/-- C17: when the scriptable-tags library is in the cache and some plugin
directory holds the file `<dir>/<major>.<v>/<name>.qs`,
`EnginePrivate::loadLibrary( name, v )` returns a new script container built
from the first such directory in configured order (and appends it to the
list of scriptable libraries); when the scriptable-tags library is not in
the cache, or no directory holds the file, it is exactly
`EnginePrivate::loadCppLibrary( name, v )`; without the scriptable-tags
library in the cache it never returns a script container; and
`Engine::loadLibrary` of the scriptable-tags name itself returns null and
leaves the state as it was. -/
theorem loadLibrary_script_gated_and_preferred (env : Env) (d : EnginePrivate)
    (name : String) (v : Nat) :
    (∀ (host : TagLibraryInterface) (i : Nat) (dir : String),
        QHash.value d.m_libraries scriptableLibName = some host →
        d.m_pluginDirs[i]? = some dir →
        env.fileExists (scriptFileName env dir name v) = true →
        (∀ j dir2, j < i → d.m_pluginDirs[j]? = some dir2 →
          env.fileExists (scriptFileName env dir2 name v) = false) →
        EnginePrivate.loadLibrary env d name v =
          Outcome.returned
            (some (TagLibraryInterface.scriptable d.m_scriptableLibraries.length host
                (scriptFileName env dir name v)),
              { d with
                m_scriptableLibraries := d.m_scriptableLibraries ++
                  [TagLibraryInterface.scriptable d.m_scriptableLibraries.length host
                    (scriptFileName env dir name v)] })) ∧
      (QHash.contains d.m_libraries scriptableLibName = false ∨
          (∀ dir ∈ d.m_pluginDirs, env.fileExists (scriptFileName env dir name v) = false) →
        EnginePrivate.loadLibrary env d name v = EnginePrivate.loadCppLibrary env d name v) ∧
      (QHash.contains d.m_libraries scriptableLibName = false →
        ∀ (serial : Nat) (host : TagLibraryInterface) (file : String),
          EnginePrivate.resolves env d name v ≠
            Outcome.returned (some (TagLibraryInterface.scriptable serial host file))) ∧
      (∀ budget, Engine.loadLibrary env budget d scriptableLibName =
        some (Outcome.returned { library := none, state := d, attempts := [] })) := by
  have hmiss : QHash.contains d.m_libraries scriptableLibName = false ∨
      (∀ dir ∈ d.m_pluginDirs, env.fileExists (scriptFileName env dir name v) = false) →
      EnginePrivate.loadLibrary env d name v = EnginePrivate.loadCppLibrary env d name v := by
    intro h
    have hs : EnginePrivate.loadScriptableLibrary env d name v = (none, d) := by
      unfold EnginePrivate.loadScriptableLibrary
      cases hv : QHash.value d.m_libraries scriptableLibName with
      | none => rfl
      | some host =>
        rcases h with h | h
        · unfold QHash.contains at h
          unfold QHash.value at hv
          rw [hv] at h
          simp at h
        · exact loadScriptableLibraryLoop_no_file env d host name v _ h
    unfold EnginePrivate.loadLibrary
    rw [hs]
  refine ⟨?_, hmiss, ?_, ?_⟩
  · intro host i dir hhost hget hex hfirst
    unfold EnginePrivate.loadLibrary EnginePrivate.loadScriptableLibrary
    rw [hhost]
    simp only
    rw [loadScriptableLibraryLoop_first env d host name v d.m_pluginDirs i dir hget hex hfirst]
  · intro hc serial host file
    unfold EnginePrivate.resolves
    rw [hmiss (Or.inl hc)]
    exact loadCppLibrary_not_scriptable env d name v serial host file
  · intro budget
    unfold Engine.loadLibrary
    rw [if_pos rfl]

/-- The engine `scriptEngine` is the state `EnginePrivate::loadCppLibrary`
leaves when `Engine::loadDefaultLibraries` loads the scriptable-tags plugin
on a fresh engine with plugin directory `/p`. -/
theorem scriptEngine_reached :
    EnginePrivate.loadCppLibrary scriptEnv (engineWithDirs ["/p"]) scriptableLibName 1 =
      Outcome.returned (some (TagLibraryInterface.plugin 7), scriptEngine) :=
  rfl

/-- C17 at a concrete engine: with the scriptable-tags plugin loaded and the
script `/p/0.1/foo.qs` present, `foo` resolves to a script container; `bar`
has no script file and falls through to the C++ path; on a fresh engine
nothing is a script library. -/
theorem loadLibrary_script_gated_and_preferred_witness :
    QHash.value scriptEngine.m_libraries scriptableLibName =
        some (TagLibraryInterface.plugin 7) ∧
      EnginePrivate.loadLibrary scriptEnv scriptEngine "foo" 1 =
        Outcome.returned
          (some (TagLibraryInterface.scriptable scriptEngine.m_scriptableLibraries.length
              (TagLibraryInterface.plugin 7) (scriptFileName scriptEnv "/p" "foo" 1)),
            { scriptEngine with
              m_scriptableLibraries := scriptEngine.m_scriptableLibraries ++
                [TagLibraryInterface.scriptable scriptEngine.m_scriptableLibraries.length
                  (TagLibraryInterface.plugin 7) (scriptFileName scriptEnv "/p" "foo" 1)] }) ∧
      scriptFileName scriptEnv "/p" "foo" 1 = "/p/0.1/foo.qs" ∧
      EnginePrivate.loadLibrary scriptEnv scriptEngine "bar" 1 =
        EnginePrivate.loadCppLibrary scriptEnv scriptEngine "bar" 1 ∧
      (∀ (serial : Nat) (host : TagLibraryInterface) (file : String),
        EnginePrivate.resolves scriptEnv (engineWithDirs ["/p"]) "foo" 1 ≠
          Outcome.returned (some (TagLibraryInterface.scriptable serial host file))) ∧
      Engine.loadLibrary scriptEnv 2 scriptEngine scriptableLibName =
        some (Outcome.returned { library := none, state := scriptEngine, attempts := [] }) :=
  ⟨rfl,
    (loadLibrary_script_gated_and_preferred scriptEnv scriptEngine "foo" 1).1
      (TagLibraryInterface.plugin 7) 0 "/p" rfl rfl rfl
      (fun j _ hj _ => absurd hj (Nat.not_lt_zero j)),
    by decide,
    (loadLibrary_script_gated_and_preferred scriptEnv scriptEngine "bar" 1).2.1
      (Or.inr (by
        intro dir hdir
        have hd : dir = "/p" := by
          have : dir ∈ ["/p"] := hdir
          simpa using this
        subst hd
        rfl)),
    (loadLibrary_script_gated_and_preferred scriptEnv (engineWithDirs ["/p"]) "foo" 1).2.2.1
      rfl,
    (loadLibrary_script_gated_and_preferred scriptEnv scriptEngine "foo" 1).2.2.2 2⟩

/-! ### Type accessors: capitalize and the character-class lookups -/

/-- For a non-empty string the `capitalize` lookup returns the upper-cased
first character followed by the other characters unchanged. -/
theorem capitalize_nonempty (U : QtText) (object : SafeString) (c : Char) (rest : List Char)
    (h : object.get.toList = c :: rest) :
    TypeAccessor.SafeString.lookUp U object "capitalize" =
      some (QVariant.string (String.mk (U.toUpper c :: rest))) := by
  unfold TypeAccessor.SafeString.lookUp
  simp only [if_true, h, QString.right, List.length_cons, Nat.add_sub_cancel]
  have : rest.length + 1 - rest.length = 1 := by omega
  simp [this]

/-- C12 at the failing input: for the empty string the `capitalize` lookup
has no defined result, because `s.at( 0 )` is an access out of range; in
particular it does not return the empty string. -/
theorem capitalize_empty_undefined (U : QtText) (isSafe : Bool) :
    ("" : String).length = 0 ∧
      TypeAccessor.SafeString.lookUp U { get := "", isSafe := isSafe } "capitalize" = none ∧
      TypeAccessor.SafeString.lookUp U { get := "", isSafe := isSafe } "capitalize" ≠
        some (QVariant.string "") :=
  ⟨rfl, rfl, by simp [TypeAccessor.SafeString.lookUp]⟩

/-- C14 at the failing input: on the empty string the `isalnum` and `isdigit`
lookups answer `True` (their loops test no character), while `isalpha`, which
tests for the empty string first, answers `False`. -/
theorem isalnum_isdigit_empty_true (U : QtText) (isSafe : Bool) :
    TypeAccessor.SafeString.lookUp U { get := "", isSafe := isSafe } "isalnum" =
        some (QVariant.string "True") ∧
      TypeAccessor.SafeString.lookUp U { get := "", isSafe := isSafe } "isdigit" =
        some (QVariant.string "True") ∧
      TypeAccessor.SafeString.lookUp U { get := "", isSafe := isSafe } "isalpha" =
        some (QVariant.string "False") :=
  ⟨rfl, rfl, rfl⟩

/-- What the three character-class lookups compute: `isalnum` and `isdigit`
test every character and nothing else; only `isalpha` also asks for a
non-empty string. -/
theorem character_class_lookups (U : QtText) (object : SafeString) :
    (TypeAccessor.SafeString.lookUp U object "isalnum" = some (QVariant.string "True") ↔
        ∀ c ∈ object.get.toList, U.isLetterOrNumber c = true) ∧
      (TypeAccessor.SafeString.lookUp U object "isalpha" = some (QVariant.string "True") ↔
        object.get.toList ≠ [] ∧ ∀ c ∈ object.get.toList, U.isLetter c = true) ∧
      (TypeAccessor.SafeString.lookUp U object "isdigit" = some (QVariant.string "True") ↔
        ∀ c ∈ object.get.toList, U.isNumber c = true) ∧
      (TypeAccessor.SafeString.lookUp U object "isalnum" = some (QVariant.string "True") ∨
        TypeAccessor.SafeString.lookUp U object "isalnum" = some (QVariant.string "False")) ∧
      (TypeAccessor.SafeString.lookUp U object "isalpha" = some (QVariant.string "True") ∨
        TypeAccessor.SafeString.lookUp U object "isalpha" = some (QVariant.string "False")) ∧
      (TypeAccessor.SafeString.lookUp U object "isdigit" = some (QVariant.string "True") ∨
        TypeAccessor.SafeString.lookUp U object "isdigit" = some (QVariant.string "False")) := by
  have h1 : TypeAccessor.SafeString.lookUp U object "isalnum" =
      if object.get.toList.all U.isLetterOrNumber then some (QVariant.string "True")
      else some (QVariant.string "False") := rfl
  have h2 : TypeAccessor.SafeString.lookUp U object "isalpha" =
      if object.get.toList.isEmpty then some (QVariant.string "False")
      else if object.get.toList.all U.isLetter then some (QVariant.string "True")
      else some (QVariant.string "False") := rfl
  have h3 : TypeAccessor.SafeString.lookUp U object "isdigit" =
      if object.get.toList.all U.isNumber then some (QVariant.string "True")
      else some (QVariant.string "False") := rfl
  rw [h1, h2, h3]
  refine ⟨?_, ?_, ?_, ?_, ?_, ?_⟩
  · by_cases h : object.get.toList.all U.isLetterOrNumber = true
    · simp only [h, if_true, true_iff]
      exact List.all_eq_true.mp h
    · simp only [h, if_false]
      constructor
      · intro hc; simp at hc
      · intro hc; exact absurd (List.all_eq_true.mpr hc) h
  · cases hl : object.get.toList with
    | nil => simp
    | cons c rest =>
      by_cases h : (c :: rest).all U.isLetter = true
      · simp only [List.isEmpty_cons, Bool.false_eq_true, if_false, h, if_true, true_iff]
        exact ⟨by simp, List.all_eq_true.mp h⟩
      · simp only [List.isEmpty_cons, Bool.false_eq_true, if_false, h]
        constructor
        · intro hc; simp at hc
        · intro hc; exact absurd (List.all_eq_true.mpr hc.2) h
  · by_cases h : object.get.toList.all U.isNumber = true
    · simp only [h, if_true, true_iff]
      exact List.all_eq_true.mp h
    · simp only [h, if_false]
      constructor
      · intro hc; simp at hc
      · intro hc; exact absurd (List.all_eq_true.mpr hc) h
  · split <;> simp
  · split
    · simp
    · split <;> simp
  · split <;> simp

/-! ### Type accessors: splitlines -/

theorem split_ne_nil (sep : Char) (s : List Char) : QString.split sep s ≠ [] := by
  cases s with
  | nil => simp [QString.split]
  | cons c rest =>
    unfold QString.split
    split
    · simp
    · split <;> simp

theorem split_length (sep : Char) (s : List Char) :
    (QString.split sep s).length = s.count sep + 1 := by
  induction s with
  | nil => simp [QString.split]
  | cons c rest ih =>
    unfold QString.split
    by_cases hc : c = sep
    · subst hc
      simp [ih]
    · rw [if_neg hc]
      have hcount : (c :: rest).count sep = rest.count sep := by
        rw [List.count_cons]
        simp [hc]
      rw [hcount, ← ih]
      cases hs : QString.split sep rest with
      | nil => exact absurd hs (split_ne_nil sep rest)
      | cons piece pieces => simp

theorem split_no_separator (sep : Char) (s : List Char) :
    ∀ piece ∈ QString.split sep s, sep ∉ piece := by
  induction s with
  | nil => simp [QString.split]
  | cons c rest ih =>
    unfold QString.split
    by_cases hc : c = sep
    · rw [if_pos hc]
      intro piece hp
      simp only [List.mem_cons] at hp
      rcases hp with hp | hp
      · subst hp; simp
      · exact ih piece hp
    · rw [if_neg hc]
      cases hs : QString.split sep rest with
      | nil => exact absurd hs (split_ne_nil sep rest)
      | cons piece pieces =>
        rw [hs] at ih
        intro q hq
        simp only [List.mem_cons] at hq
        rcases hq with hq | hq
        · subst hq
          have := ih piece (List.mem_cons_self _ _)
          simp only [List.mem_cons, not_or]
          exact ⟨fun h => hc h.symm, this⟩
        · exact ih q (List.mem_cons_of_mem _ hq)

theorem intercalate_cons_cons (sep : List Char) (c : Char) (piece : List Char)
    (pieces : List (List Char)) :
    sep.intercalate ((c :: piece) :: pieces) = c :: sep.intercalate (piece :: pieces) := by
  cases pieces with
  | nil => simp [List.intercalate]
  | cons q qs => simp [List.intercalate]

theorem intercalate_nil_cons (sep : List Char) (piece : List Char)
    (pieces : List (List Char)) :
    sep.intercalate ([] :: piece :: pieces) = sep ++ sep.intercalate (piece :: pieces) := by
  simp [List.intercalate]

theorem split_intercalate (sep : Char) (s : List Char) :
    [sep].intercalate (QString.split sep s) = s := by
  induction s with
  | nil => simp [QString.split, List.intercalate]
  | cons c rest ih =>
    unfold QString.split
    by_cases hc : c = sep
    · rw [if_pos hc]
      cases hs : QString.split sep rest with
      | nil => exact absurd hs (split_ne_nil sep rest)
      | cons piece pieces =>
        rw [hs] at ih
        rw [intercalate_nil_cons, ih, hc]
        rfl
    · rw [if_neg hc]
      cases hs : QString.split sep rest with
      | nil => exact absurd hs (split_ne_nil sep rest)
      | cons piece pieces =>
        rw [hs] at ih
        simp only
        rw [intercalate_cons_cons, ih]

theorem string_intercalate_go (sep : String) (acc : String) (l : List (List Char)) :
    String.intercalate.go acc sep (l.map String.mk) =
      String.mk (acc.data ++ (l.map (fun p => sep.data ++ p)).flatten) := by
  induction l generalizing acc with
  | nil => simp [String.intercalate.go]
  | cons p ps ih =>
    simp only [List.map_cons, String.intercalate.go]
    rw [ih]
    simp [String.data_append, List.append_assoc]

theorem string_intercalate_mk (sep : String) (l : List (List Char)) :
    sep.intercalate (l.map String.mk) = String.mk (sep.data.intercalate l) := by
  cases l with
  | nil => rfl
  | cons p ps =>
    simp only [List.map_cons, String.intercalate]
    rw [string_intercalate_go]
    congr 1
    induction ps generalizing p with
    | nil => simp [List.intercalate]
    | cons q qs ih =>
      have := ih q
      simp only [List.intercalate, List.intersperse_cons₂, List.flatten_cons, List.map_cons] at this ⊢
      rw [← this]
      simp [List.append_assoc]

/-- C16: the `splitlines` lookup returns a list of strings with one element
more than the string has newline characters (so the list is never empty), no
element holds a newline, and joining the elements with a newline gives the
string back. -/
theorem splitlines_inverted_by_join (U : QtText) (object : SafeString) :
    ∃ lines : List String,
      TypeAccessor.SafeString.lookUp U object "splitlines" =
          some (QVariant.list (lines.map QVariant.string)) ∧
        lines.length = object.get.toList.count '\n' + 1 ∧
        lines ≠ [] ∧
        (∀ line ∈ lines, '\n' ∉ line.toList) ∧
        "\n".intercalate lines = object.get := by
  refine ⟨(QString.split '\n' object.get.toList).map String.mk, ?_, ?_, ?_, ?_, ?_⟩
  · unfold TypeAccessor.SafeString.lookUp
    simp [List.map_map, Function.comp_def]
  · rw [List.length_map, split_length]
  · intro h
    exact split_ne_nil '\n' object.get.toList (List.map_eq_nil_iff.mp h)
  · intro line hline
    rw [List.mem_map] at hline
    obtain ⟨piece, hp, rfl⟩ := hline
    exact split_no_separator '\n' object.get.toList piece hp
  · rw [string_intercalate_mk]
    have : ("\n" : String).data = ['\n'] := rfl
    rw [this, split_intercalate]
    rfl

/-- The empty string splits into one empty line; a trailing newline gives a
trailing empty line. -/
theorem splitlines_examples :
    TypeAccessor.SafeString.lookUp asciiText { get := "", isSafe := false } "splitlines" =
        some (QVariant.list [QVariant.string ""]) ∧
      TypeAccessor.SafeString.lookUp asciiText { get := "a\nb\n", isSafe := false }
          "splitlines" =
        some (QVariant.list [QVariant.string "a", QVariant.string "b", QVariant.string ""]) :=
  ⟨rfl, rfl⟩

/-! ### Type accessors: title and istitle -/

theorem find_range_some (p : Nat → Bool) :
    ∀ (n a b : Nat), (List.range' a n).find? p = some b →
      a ≤ b ∧ b < a + n ∧ p b = true ∧ ∀ i, a ≤ i → i < b → p i = false := by
  intro n
  induction n with
  | zero => intro a b h; simp at h
  | succ n ih =>
    intro a b h
    rw [List.range'_succ, List.find?_cons] at h
    cases hp : p a with
    | true =>
      rw [hp] at h
      simp only [Option.some.injEq] at h
      subst h
      exact ⟨le_refl _, by omega, hp, fun i h1 h2 => by omega⟩
    | false =>
      rw [hp] at h
      obtain ⟨h1, h2, h3, h4⟩ := ih (a + 1) b h
      refine ⟨by omega, by omega, h3, ?_⟩
      intro i hi1 hi2
      by_cases hia : i = a
      · subst hia; exact hp
      · exact h4 i (by omega) hi2

theorem find_range_none (p : Nat → Bool) (n a : Nat)
    (h : (List.range' a n).find? p = none) : ∀ i, a ≤ i → i < a + n → p i = false := by
  intro i h1 h2
  rw [List.find?_eq_none] at h
  have := h i (by rw [List.mem_range'_1]; exact ⟨h1, h2⟩)
  simpa using this

theorem indexIn_some_spec (re : List Char → Nat → Bool) (s : List Char) (a b : Nat)
    (h : QRegExp.indexIn re s a = some b) :
    a ≤ b ∧ b < s.length ∧ re s b = true ∧ ∀ i, a ≤ i → i < b → re s i = false := by
  unfold QRegExp.indexIn at h
  obtain ⟨h1, h2, h3, h4⟩ := find_range_some (re s) _ a b h
  exact ⟨h1, by omega, h3, h4⟩

theorem indexIn_none_spec (re : List Char → Nat → Bool) (s : List Char) (a : Nat)
    (h : QRegExp.indexIn re s a = none) : ∀ i, a ≤ i → i < s.length → re s i = false := by
  intro i h1 h2
  unfold QRegExp.indexIn at h
  exact find_range_none (re s) _ a h i h1 (by omega)

theorem indexIn_eq_none (re : List Char → Nat → Bool) (s : List Char) (a : Nat)
    (h : ∀ i, a ≤ i → i < s.length → re s i = false) : QRegExp.indexIn re s a = none := by
  unfold QRegExp.indexIn
  rw [List.find?_eq_none]
  intro i hi
  rw [List.mem_range'_1] at hi
  simp [h i hi.1 (by omega)]

theorem wordBoundary_eq (U : QtText) (s : List Char) (p : Nat) (hp : p < s.length) :
    QRegExp.wordBoundary U s p = (QRegExp.wordBefore U s p != QRegExp.isWord U s[p]) := by
  unfold QRegExp.wordBoundary QRegExp.wordBefore
  simp only [List.getElem?_eq_getElem hp]

theorem wordBefore_succ (U : QtText) (s : List Char) (p : Nat) (hp : p < s.length) :
    QRegExp.wordBefore U s (p + 1) = QRegExp.isWord U s[p] := by
  unfold QRegExp.wordBefore
  simp [List.getElem?_eq_getElem hp]

theorem getTitleRegexp_eq (U : QtText) (s : List Char) (p : Nat) (hp : p < s.length) :
    getTitleRegexp U s p = (QRegExp.wordBefore U s p != QRegExp.isWord U s[p]) := by
  unfold getTitleRegexp
  rw [wordBoundary_eq U s p hp]
  simp [hp]

theorem getIsTitleRegexp_eq (U : QtText) (s : List Char) (p : Nat) (hp : p < s.length) :
    getIsTitleRegexp U s p =
      ((QRegExp.wordBefore U s p != QRegExp.isWord U s[p]) &&
        decide ('a' ≤ s[p] ∧ s[p] ≤ 'z')) := by
  unfold getIsTitleRegexp
  rw [wordBoundary_eq U s p hp]
  simp only [List.getElem?_eq_getElem hp]

theorem getIsTitleRegexp_beyond (U : QtText) (s : List Char) (p : Nat) (hp : s.length ≤ p) :
    getIsTitleRegexp U s p = false := by
  unfold getIsTitleRegexp
  simp [List.getElem?_eq_none hp]

/-- Title-casing a suffix that starts at a match of `\b(.)`. -/
theorem titleCase_at_match (U : QtText) (s : List Char) (b : Nat) (hb : b < s.length)
    (hre : getTitleRegexp U s b = true) :
    titleCase U (QRegExp.wordBefore U s b) (s.drop b) =
      U.upperCased s[b] ++ titleCase U (QRegExp.wordBefore U s (b + 1)) (s.drop (b + 1)) := by
  rw [getTitleRegexp_eq U s b hb] at hre
  rw [List.drop_eq_getElem_cons hb, titleCase, hre, if_pos rfl, wordBefore_succ U s b hb]

/-- Title-casing copies a stretch without a match of `\b(.)`. -/
theorem titleCase_no_match (U : QtText) (s : List Char) :
    ∀ (n a b : Nat), b = a + n → b ≤ s.length →
      (∀ i, a ≤ i → i < b → getTitleRegexp U s i = false) →
      titleCase U (QRegExp.wordBefore U s a) (s.drop a) =
        (s.drop a).take (b - a) ++ titleCase U (QRegExp.wordBefore U s b) (s.drop b) := by
  intro n
  induction n with
  | zero =>
    intro a b hab _ _
    have : b = a := by omega
    subst this
    simp
  | succ n ih =>
    intro a b hab hb hno
    have ha : a < s.length := by omega
    have hre := hno a (le_refl a) (by omega)
    rw [getTitleRegexp_eq U s a ha] at hre
    have hstep := ih (a + 1) b (by omega) hb (fun i h1 h2 => hno i (by omega) h2)
    rw [List.drop_eq_getElem_cons ha, titleCase, hre]
    rw [wordBefore_succ U s a ha] at hstep
    rw [hstep]
    have hba : b - a = (b - (a + 1)) + 1 := by omega
    rw [hba, List.take_succ_cons]
    simp

theorem titleCase_rest_no_match (U : QtText) (s : List Char) (a : Nat) (ha : a ≤ s.length)
    (hno : ∀ i, a ≤ i → i < s.length → getTitleRegexp U s i = false) :
    titleCase U (QRegExp.wordBefore U s a) (s.drop a) = s.drop a := by
  have h := titleCase_no_match U s (s.length - a) a s.length (by omega) (le_refl _) hno
  rw [h, List.drop_length, titleCase]
  simp

/-- What the `title` loop computes from position `pos` on: it appends, from
the first match of `\b(.)` at or after `pos`, the title-cased rest of the
string; what lies between `pos` and that match is left out. -/
theorem titleLoop_eq (U : QtText) (s : List Char) :
    ∀ (budget pos : Nat) (output : List Char), pos ≤ s.length →
      s.length + 1 ≤ budget + pos →
      titleLoop U s budget pos output =
        some (output ++
          match QRegExp.indexIn (getTitleRegexp U) s pos with
          | none => []
          | some p => titleCase U (QRegExp.wordBefore U s p) (s.drop p)) := by
  intro budget
  induction budget with
  | zero => intro pos output h1 h2; omega
  | succ k ih =>
    intro pos output hpos hbud
    unfold titleLoop
    cases hi : QRegExp.indexIn (getTitleRegexp U) s pos with
    | none => simp
    | some p =>
      obtain ⟨hp1, hp2, hp3, _⟩ := indexIn_some_spec _ _ _ _ hi
      have hmid : QString.toUpper U (QString.mid s p 1) = U.upperCased s[p] := by
        unfold QString.toUpper QString.mid
        rw [List.drop_eq_getElem_cons hp2]
        simp only [List.take_succ_cons, List.take_zero, List.flatMap, List.map, List.flatten,
          List.append_nil]
      simp only [hmid]
      rw [ih (p + 1) _ (by omega) (by omega)]
      rw [titleCase_at_match U s p hp2 hp3]
      cases hn : QRegExp.indexIn (getTitleRegexp U) s (p + 1) with
      | none =>
        have hno := indexIn_none_spec _ _ _ hn
        simp only [List.append_nil]
        rw [titleCase_rest_no_match U s (p + 1) (by omega) hno]
        unfold QString.right
        have : s.length - (s.length - (p + 1)) = p + 1 := by omega
        rw [this, List.append_assoc]
      | some q =>
        obtain ⟨hq1, hq2, _, hq4⟩ := indexIn_some_spec _ _ _ _ hn
        simp only
        rw [titleCase_no_match U s (q - (p + 1)) (p + 1) q (by omega) (by omega) hq4]
        unfold QString.mid
        have : q - p - 1 = q - (p + 1) := by omega
        rw [this]
        simp only [List.append_assoc]

/-- Before the first match of `\b(.)` there is no word character. -/
theorem no_word_before_first_match (U : QtText) (s : List Char) :
    ∀ (p : Nat), p ≤ s.length → (∀ i, i < p → getTitleRegexp U s i = false) →
      QRegExp.wordBefore U s p = false ∧
        ∀ i (hi : i < s.length), i < p → QRegExp.isWord U s[i] = false := by
  intro p
  induction p with
  | zero =>
    intro _ _
    exact ⟨rfl, fun i _ h => absurd h (Nat.not_lt_zero i)⟩
  | succ p ih =>
    intro hp hno
    have hps : p < s.length := by omega
    obtain ⟨hb, hall⟩ := ih (by omega) (fun i hi => hno i (by omega))
    have hre := hno p (Nat.lt_succ_self p)
    rw [getTitleRegexp_eq U s p hps, hb] at hre
    have hw : QRegExp.isWord U s[p] = false := by
      cases h : QRegExp.isWord U s[p] with
      | false => rfl
      | true => rw [h] at hre; simp at hre
    refine ⟨by rw [wordBefore_succ U s p hps, hw], ?_⟩
    intro i hi hip
    by_cases hip2 : i = p
    · subst hip2; exact hw
    · exact hall i hi (by omega)

theorem dropWhile_eq_drop (f : Char → Bool) :
    ∀ (s : List Char) (p : Nat), p ≤ s.length →
      (∀ i (hi : i < s.length), i < p → f s[i] = true) →
      (∀ (hp : p < s.length), f s[p] = false) →
      s.dropWhile f = s.drop p := by
  intro s
  induction s with
  | nil => intro p _ _ _; simp
  | cons c rest ih =>
    intro p hp hall hstop
    cases p with
    | zero =>
      have := hstop (by simp)
      simp only [List.getElem_cons_zero] at this
      simp [List.dropWhile_cons, this]
    | succ p =>
      have h0 := hall 0 (by simp) (Nat.succ_pos p)
      simp only [List.getElem_cons_zero] at h0
      rw [List.dropWhile_cons, h0, if_pos rfl, List.drop_succ_cons]
      apply ih p (by simpa using hp)
      · intro i hi hip
        have := hall (i + 1) (by simpa using hi) (by omega)
        simpa using this
      · intro hp2
        have := hstop (by simpa using hp2)
        simpa using this

/-- The `title` loop, run as the accessor runs it, returns the title-cased
text that begins at the first word character of the string; the characters
before it are dropped, and nothing is returned when the string has no word
character. -/
theorem title_eq_titleCase (U : QtText) (s : List Char) :
    titleLoop U s (s.length + 1) 0 [] =
      some (titleCase U false (s.dropWhile (fun c => !QRegExp.isWord U c))) := by
  rw [titleLoop_eq U s (s.length + 1) 0 [] (Nat.zero_le _) (by omega), List.nil_append]
  cases hi : QRegExp.indexIn (getTitleRegexp U) s 0 with
  | none =>
    have hno := indexIn_none_spec _ _ _ hi
    obtain ⟨_, hall⟩ := no_word_before_first_match U s s.length (le_refl _)
      (fun i hi => hno i (Nat.zero_le _) hi)
    have : s.dropWhile (fun c => !QRegExp.isWord U c) = s.drop s.length :=
      dropWhile_eq_drop _ s s.length (le_refl _)
        (fun i hi hip => by simp [hall i hi hip]) (fun hp => absurd hp (lt_irrefl _))
    rw [this, List.drop_length]
    rfl
  | some p =>
    obtain ⟨_, hp2, hp3, hp4⟩ := indexIn_some_spec _ _ _ _ hi
    obtain ⟨hb, hall⟩ := no_word_before_first_match U s p (by omega)
      (fun i hi => hp4 i (Nat.zero_le _) hi)
    have hw : QRegExp.isWord U s[p] = true := by
      rw [getTitleRegexp_eq U s p hp2, hb] at hp3
      simpa using hp3
    have : s.dropWhile (fun c => !QRegExp.isWord U c) = s.drop p :=
      dropWhile_eq_drop _ s p (by omega)
        (fun i hi hip => by simp [hall i hi hip]) (fun _ => by simp [hw])
    simp only
    rw [this, hb]

theorem titleViolation_append (U : QtText) (x y : List Char) :
    ∀ (b : Bool), titleViolation U b (x ++ y) =
      (titleViolation U b x || titleViolation U (lastIsWord U b x) y) := by
  induction x with
  | nil => intro b; simp [titleViolation, lastIsWord]
  | cons c rest ih =>
    intro b
    simp only [List.cons_append, titleViolation, lastIsWord, List.append_eq, ih,
      Bool.or_assoc]

theorem titleViolation_no_lower (U : QtText) (x : List Char)
    (h : ∀ c ∈ x, ¬ ('a' ≤ c ∧ c ≤ 'z')) : ∀ (b : Bool), titleViolation U b x = false := by
  induction x with
  | nil => intro b; rfl
  | cons c rest ih =>
    intro b
    have hc := h c (List.mem_cons_self _ _)
    simp only [titleViolation, hc, decide_False, Bool.and_false, Bool.false_or]
    exact ih (fun c2 h2 => h c2 (List.mem_cons_of_mem _ h2)) _

theorem lastIsWord_concat (U : QtText) (front : List Char) (last : Char) :
    ∀ (b : Bool), lastIsWord U b (front ++ [last]) = QRegExp.isWord U last := by
  induction front with
  | nil => intro b; rfl
  | cons c rest ih => intro b; simp only [List.cons_append, lastIsWord, List.append_eq, ih]

/-- The title-cased text holds no lower-case letter a-z after a word
boundary, whenever a word character before the text in the source is matched
by a word character before it in the output. -/
theorem titleCase_no_violation (U : QtText) (hU : U.CaseSane) :
    ∀ (l : List Char) (b b0 : Bool), (b = true → b0 = true) →
      titleViolation U b0 (titleCase U b l) = false := by
  obtain ⟨hU1, hU2, hU3⟩ := hU
  intro l
  induction l with
  | nil => intro b b0 _; rfl
  | cons c rest ih =>
    intro b b0 hb
    rw [titleCase, titleViolation_append]
    by_cases hbd : (b != QRegExp.isWord U c) = true
    · -- the character stands at a word boundary and is replaced by its expansion
      rw [if_pos hbd, titleViolation_no_lower U _ (fun c2 h2 => hU2 c c2 h2) b0, Bool.false_or]
      apply ih
      intro hw
      obtain ⟨front, last, hfl, hlast⟩ := hU3 c hw
      rw [hfl, lastIsWord_concat, hlast]
    · -- the character is kept
      rw [if_neg hbd]
      have hbeq : b = QRegExp.isWord U c := by
        cases b <;> cases h : QRegExp.isWord U c <;> simp_all
      have hfirst : titleViolation U b0 [c] = false := by
        simp only [titleViolation, Bool.or_false]
        by_cases hlow : 'a' ≤ c ∧ c ≤ 'z'
        · have hw := hU1 c hlow
          have hb0 : b0 = true := hb (by rw [hbeq, hw])
          rw [hb0, hw]
          rfl
        · simp [hlow]
      rw [hfirst, Bool.false_or]
      apply ih
      intro hw
      show lastIsWord U (QRegExp.isWord U c) [] = true
      exact hw

/-- The structural test for a violation is sound for the expression
`\b[a-z]`: a text without a violation has no match. -/
theorem titleViolation_sound (U : QtText) (out : List Char) :
    ∀ (n q0 : Nat), out.length = q0 + n →
      titleViolation U (QRegExp.wordBefore U out q0) (out.drop q0) = false →
      ∀ q, q0 ≤ q → q < out.length → getIsTitleRegexp U out q = false := by
  intro n
  induction n with
  | zero => intro q0 hlen _ q h1 h2; omega
  | succ n ih =>
    intro q0 hlen hv q h1 h2
    have hq0 : q0 < out.length := by omega
    rw [List.drop_eq_getElem_cons hq0, titleViolation, Bool.or_eq_false_iff] at hv
    obtain ⟨hv1, hv2⟩ := hv
    by_cases hq : q = q0
    · subst hq
      rw [getIsTitleRegexp_eq U out q hq0]
      exact hv1
    · rw [← wordBefore_succ U out q0 hq0] at hv2
      exact ih (q0 + 1) (by omega) hv2 q (by omega) h2

/-- C15: with Qt case tables that are sane in the sense of `CaseSane`, the
`title` lookup returns a string for every input (its loop ends within its
step budget, the search position moving past each match), and the `istitle`
lookup on that string answers `True`: the result holds no lower-case letter
a-z right after a word boundary. -/
theorem title_establishes_istitle (U : QtText) (hU : U.CaseSane) (object : SafeString)
    (isSafe : Bool) :
    ∃ t : String,
      TypeAccessor.SafeString.lookUp U object "title" = some (QVariant.string t) ∧
        TypeAccessor.SafeString.lookUp U { get := t, isSafe := isSafe } "istitle" =
          some (QVariant.string "True") := by
  refine ⟨String.mk
    (titleCase U false (object.get.toList.dropWhile (fun c => !QRegExp.isWord U c))), ?_, ?_⟩
  · have h : TypeAccessor.SafeString.lookUp U object "title" =
        (titleLoop U object.get.toList (object.get.toList.length + 1) 0 []).map
          (fun output => QVariant.string (String.mk output)) := rfl
    rw [h, title_eq_titleCase]
    rfl
  · have h : ∀ out : List Char,
        TypeAccessor.SafeString.lookUp U { get := String.mk out, isSafe := isSafe } "istitle" =
          some (QVariant.string
            (if (QRegExp.indexIn (getIsTitleRegexp U) out 0).isNone then "True"
              else "False")) := fun _ => rfl
    rw [h]
    have hnone : QRegExp.indexIn (getIsTitleRegexp U)
        (titleCase U false (object.get.toList.dropWhile (fun c => !QRegExp.isWord U c))) 0 =
        none := by
      apply indexIn_eq_none
      intro q hq1 hq2
      exact titleViolation_sound U _ _ 0 (Nat.zero_add _).symm
        (titleCase_no_violation U hU _ false false (fun h => h)) q hq1 hq2
    rw [hnone]
    rfl

theorem char_le_iff (a b : Char) : a ≤ b ↔ a.toNat ≤ b.toNat := by
  rfl

theorem char_lower_iff (c : Char) : ('a' ≤ c ∧ c ≤ 'z') ↔ (97 ≤ c.toNat ∧ c.toNat ≤ 122) := by
  rw [char_le_iff, char_le_iff]
  rfl

theorem isLower_iff (c : Char) : c.isLower = true ↔ (97 ≤ c.toNat ∧ c.toNat ≤ 122) := by
  unfold Char.isLower
  rw [Bool.and_eq_true, decide_eq_true_iff, decide_eq_true_iff]
  exact Iff.rfl

theorem isUpper_iff (c : Char) : c.isUpper = true ↔ (65 ≤ c.toNat ∧ c.toNat ≤ 90) := by
  unfold Char.isUpper
  rw [Bool.and_eq_true, decide_eq_true_iff, decide_eq_true_iff]
  exact Iff.rfl

theorem toUpper_of_lower (c : Char) (h : 97 ≤ c.toNat ∧ c.toNat ≤ 122) :
    65 ≤ c.toUpper.toNat ∧ c.toUpper.toNat ≤ 90 := by
  unfold Char.toUpper
  simp only [ge_iff_le, h, and_self, if_true]
  obtain ⟨h1, h2⟩ := h
  generalize c.toNat = n at h1 h2
  interval_cases n <;> decide

theorem toUpper_of_not_lower (c : Char) (h : ¬ (97 ≤ c.toNat ∧ c.toNat ≤ 122)) :
    c.toUpper = c := by
  unfold Char.toUpper
  simp only [ge_iff_le, h, if_false]


theorem asciiText_isWord (c : Char) :
    QRegExp.isWord asciiText c = ((c.isUpper || c.isLower) || c.isDigit || c == '_') := by
  simp [QRegExp.isWord, QtText.isLetterOrNumber, asciiText, Char.isAlpha]

theorem asciiText_caseSane : asciiText.CaseSane := by
  refine ⟨?_, ?_, ?_⟩
  · intro c hc
    rw [asciiText_isWord, (isLower_iff c).mpr ((char_lower_iff c).mp hc)]
    simp
  · intro c c2 hc2
    have hc2eq : c2 = c.toUpper := by
      have : c2 ∈ [c.toUpper] := hc2
      simpa using this
    subst hc2eq
    rw [char_lower_iff]
    by_cases hl : 97 ≤ c.toNat ∧ c.toNat ≤ 122
    · have := toUpper_of_lower c hl
      omega
    · rw [toUpper_of_not_lower c hl]
      exact hl
  · intro c hw
    refine ⟨[], c.toUpper, rfl, ?_⟩
    by_cases hl : 97 ≤ c.toNat ∧ c.toNat ≤ 122
    · rw [asciiText_isWord, (isUpper_iff _).mpr (toUpper_of_lower c hl)]
      simp
    · rw [toUpper_of_not_lower c hl]
      exact hw

/-- C15 at the ASCII tables, for a string with leading white space. -/
theorem title_establishes_istitle_witness :
    asciiText.CaseSane ∧
      ∃ t : String,
        TypeAccessor.SafeString.lookUp asciiText { get := " hello  world", isSafe := false }
            "title" = some (QVariant.string t) ∧
          TypeAccessor.SafeString.lookUp asciiText { get := t, isSafe := false } "istitle" =
            some (QVariant.string "True") :=
  ⟨asciiText_caseSane,
    title_establishes_istitle asciiText asciiText_caseSane
      { get := " hello  world", isSafe := false } false⟩

/-- The same input evaluated: the leading blank is gone and both words are
capitalised. -/
theorem title_istitle_example :
    TypeAccessor.SafeString.lookUp asciiText { get := " hello  world", isSafe := false }
        "title" = some (QVariant.string "Hello  World") ∧
      TypeAccessor.SafeString.lookUp asciiText { get := "Hello  World", isSafe := false }
        "istitle" = some (QVariant.string "True") ∧
      TypeAccessor.SafeString.lookUp asciiText { get := "hello World", isSafe := false }
        "istitle" = some (QVariant.string "False") :=
  ⟨rfl, rfl, rfl⟩

/-- Where every upper-case expansion is a single character, title-casing
keeps the length and changes a character only at a match of `\b(.)`, into
its upper-case form. -/
theorem titleCase_pointwise (U : QtText) (hsingle : ∀ c, ∃ u, U.upperCased c = [u])
    (s : List Char) :
    ∀ (n a : Nat), s.length = a + n →
      (titleCase U (QRegExp.wordBefore U s a) (s.drop a)).length = n ∧
        ∀ (i : Nat) (c : Char), a ≤ i → s[i]? = some c →
          ∃ u, (titleCase U (QRegExp.wordBefore U s a) (s.drop a))[i - a]? = some u ∧
            (getTitleRegexp U s i = true → U.upperCased c = [u]) ∧
            (getTitleRegexp U s i = false → u = c) := by
  intro n
  induction n with
  | zero =>
    intro a hlen
    have hd : s.drop a = [] := List.drop_eq_nil_of_le (by omega)
    rw [hd]
    refine ⟨rfl, ?_⟩
    intro i c hai hget
    have : s[i]? = none := List.getElem?_eq_none (by omega)
    rw [this] at hget
    exact Option.noConfusion hget
  | succ n ih =>
    intro a hlen
    have ha : a < s.length := by omega
    obtain ⟨hl, hp⟩ := ih (a + 1) (by omega)
    rw [wordBefore_succ U s a ha] at hl hp
    obtain ⟨u0, hu0⟩ := hsingle s[a]
    have hblock : ∃ v, (if (QRegExp.wordBefore U s a != QRegExp.isWord U s[a]) then
        U.upperCased s[a] else [s[a]]) = [v] ∧
        (getTitleRegexp U s a = true → U.upperCased s[a] = [v]) ∧
        (getTitleRegexp U s a = false → v = s[a]) := by
      rw [getTitleRegexp_eq U s a ha]
      by_cases hb : (QRegExp.wordBefore U s a != QRegExp.isWord U s[a]) = true
      · exact ⟨u0, by rw [if_pos hb, hu0], fun _ => hu0, fun h => by rw [hb] at h; simp at h⟩
      · refine ⟨s[a], by rw [if_neg hb], fun h => absurd h hb, fun _ => rfl⟩
    obtain ⟨v, hv, hv1, hv2⟩ := hblock
    rw [List.drop_eq_getElem_cons ha, titleCase, hv]
    refine ⟨by simp [hl], ?_⟩
    intro i c hai hget
    by_cases hia : i = a
    · subst hia
      rw [List.getElem?_eq_getElem ha] at hget
      injection hget with hget
      subst hget
      exact ⟨v, by simp, hv1, hv2⟩
    · obtain ⟨u, hu, hu1, hu2⟩ := hp i c (by omega) hget
      refine ⟨u, ?_, hu1, hu2⟩
      have : i - a = (i - (a + 1)) + 1 := by omega
      rw [this]
      simpa using hu

/-- What holds of the `title` lookup once the dropped characters are out of
the picture: for a text that is empty or begins with a word character, and
with every upper-case expansion a single character, the result has the length
of the text, and its character at each index is the upper-case form where
`\b(.)` matches and the character of the text elsewhere. -/
theorem title_pointwise_from_word_start (U : QtText)
    (hsingle : ∀ c, ∃ u, U.upperCased c = [u]) (s : List Char)
    (hstart : ∀ c rest, s = c :: rest → QRegExp.isWord U c = true) :
    ∃ out, titleLoop U s (s.length + 1) 0 [] = some out ∧ out.length = s.length ∧
      ∀ (i : Nat) (c : Char), s[i]? = some c →
        ∃ u, out[i]? = some u ∧
          (getTitleRegexp U s i = true → U.upperCased c = [u]) ∧
          (getTitleRegexp U s i = false → u = c) := by
  have hdrop : s.dropWhile (fun c => !QRegExp.isWord U c) = s := by
    cases s with
    | nil => rfl
    | cons c rest =>
      have := hstart c rest rfl
      simp [List.dropWhile_cons, this]
  refine ⟨_, title_eq_titleCase U s, ?_⟩
  rw [hdrop]
  obtain ⟨hl, hp⟩ := titleCase_pointwise U hsingle s s.length 0 (by omega)
  exact ⟨hl, fun i c hget => hp i c (Nat.zero_le _) hget⟩

/-- C13 at the failing inputs: for the string ` hello` the `title` lookup
returns `Hello`, one character shorter; position 0 is not a match of `\b(.)`,
yet the blank there is not copied and the result has `H` at index 0; and a
string without a word character gives the empty string. -/
theorem title_drops_leading_characters :
    TypeAccessor.SafeString.lookUp asciiText { get := " hello", isSafe := false } "title" =
        some (QVariant.string "Hello") ∧
      "Hello".length ≠ " hello".length ∧
      getTitleRegexp asciiText " hello".toList 0 = false ∧
      " hello".toList[0]? = some ' ' ∧
      "Hello".toList[0]? = some 'H' ∧
      TypeAccessor.SafeString.lookUp asciiText { get := "-- ", isSafe := false } "title" =
        some (QVariant.string "") := by
  refine ⟨rfl, by decide, rfl, rfl, rfl, rfl⟩

end Grantlee
